import Mathlib

/-!
Bag-of-tasks bubblesort: coordinator/worker protocol and sort primitive.

A shallow embedding of `bubblesort.c` (the MPI master/slave bag of tasks and its
sort routine).  C arrays are lists of `Int`; a pointer into an array is the list
of cells from that address on, so `&values[k]` is `values.drop k` and a store
through the pointer leaves the cells below it alone.  Counters and sizes that
the code only increments below a bound are `Nat`; control values received from
the channel are `Int`.
-/

namespace BagOfTasks

/-! ## Sort primitive (`bubblesort`, bubblesort.c lines 340-355) -/

/-- Body of the inner `for` loop at index `j` with anchor `i`: the test
`array[j] < array[i]`, the three-assignment swap, and `swapped = true`. -/
def bubblesort_body (i : Nat) (st : List Int × Bool) (j : Nat) : List Int × Bool :=
  if st.1.getD j 0 < st.1.getD i 0 then
    let swap := st.1.getD i 0
    let array1 := st.1.set i (st.1.getD j 0)
    (array1.set j swap, true)
  else st

/-- Inner loop `for(int j = i + 1; j < SIZE; j++)`, entered with `swapped = false`. -/
def bubblesort_pass (SIZE i : Nat) (array : List Int) : List Int × Bool :=
  (List.range' (i + 1) (SIZE - (i + 1))).foldl (bubblesort_body i) (array, false)

/-- Outer loop `for(int i = 0; swapped && i < SIZE; i++)`; the first argument
bounds the number of guard evaluations. -/
def bubblesort_outer (SIZE : Nat) : Nat → Nat → Bool → List Int → List Int
  | 0, _, _, array => array
  | fuel + 1, i, swapped, array =>
    if swapped && decide (i < SIZE) then
      let r := bubblesort_pass SIZE i array
      bubblesort_outer SIZE fuel (i + 1) r.2 r.1
    else array

/-- The routine `bubblesort(array, SIZE)`: `swapped = true`, `i = 0`; the guard
is evaluated at most `SIZE + 1` times. -/
def bubblesort (array : List Int) (SIZE : Nat) : List Int :=
  bubblesort_outer SIZE (SIZE + 1) 0 true array

/-! ## Job Set initialisation and the sequential runner (bubblesort.c lines 78-125, 318-323) -/

/-- The routine `populate_matrix(matrix, SIZE)`: `matrix[i] = SIZE - i` for `i` in `[0, SIZE)`. -/
def populate_matrix (matrix : List Int) (SIZE : Nat) : List Int :=
  (List.range SIZE).foldl (fun m i => m.set i ((SIZE : Int) - (i : Int))) matrix

/-- The statement `bubblesort(&values[i*ARRAY_SZ], ARRAY_SZ)`: the routine runs on the cells
from offset `i*ARRAY_SZ` on; the cells below the pointer are out of its reach. -/
def sort_unit (ARRAY_SZ : Nat) (values : List Int) (i : Nat) : List Int :=
  values.take (i * ARRAY_SZ) ++ bubblesort (values.drop (i * ARRAY_SZ)) ARRAY_SZ

/-- The loop `for(int i = 0; i < ARRAY_CNT; i++) bubblesort(&values[i*ARRAY_SZ], ARRAY_SZ);`. -/
def sequential_sort (ARRAY_CNT ARRAY_SZ : Nat) (values : List Int) : List Int :=
  (List.range ARRAY_CNT).foldl (sort_unit ARRAY_SZ) values

/-- The routine `sequential(ARRAY_CNT, ARRAY_SZ)`.  The argument is the outcome of `malloc`:
`none` for `NULL`, else the block of `ARRAY_CNT*ARRAY_SZ` cells with whatever they hold.
Returns the return code and the Job Set as it stands when the sort loop is over. -/
def sequential (ARRAY_CNT ARRAY_SZ : Nat) (block : Option (List Int)) : Int × Option (List Int) :=
  match block with
  | none => (1, none)
  | some values =>
    (0, some (sequential_sort ARRAY_CNT ARRAY_SZ (populate_matrix values (ARRAY_CNT * ARRAY_SZ))))

/-- Work Unit `k` of a Job Set with units of `ARRAY_SZ` cells: the cells
`k*ARRAY_SZ .. k*ARRAY_SZ + ARRAY_SZ - 1`. -/
def unit (ARRAY_SZ : Nat) (values : List Int) (k : Nat) : List Int :=
  (values.drop (k * ARRAY_SZ)).take ARRAY_SZ

/-! ## Messages (bubblesort.c lines 11-17) -/

/-- Service code `SVC_REQUEST`. -/
def SVC_REQUEST : Int := -1

/-- Service code `SVC_TERMINATE`. -/
def SVC_TERMINATE : Int := -2

/-- A call of `MPI_Send`: `svc dst v` is one int with tag `TAG_SVC`, `array dst data`
is an int array with tag `TAG_ARRAY`. -/
inductive Msg where
  | svc (dst : Nat) (service : Int)
  | array (dst : Nat) (data : List Int)
  deriving DecidableEq

/-- What `MPI_Recv(buf, count, MPI_INT, ...)` leaves in the cells from `buf` on when the
matching message carries `data`: at most `count` ints are stored, at the start. -/
def mpi_recv (buf : List Int) (count : Nat) (data : List Int) : List Int :=
  data.take count ++ buf.drop (data.take count).length

/-! ## Coordinator (`parallel_master`, bubblesort.c lines 140-247) -/

/-- Coordinator variables: the Job Set `values`, the counters `terminated_cnt` and
`sorted_cnt`, and `stray`, the stores made through `&values[service*ARRAY_SZ]` that fell
outside `values` (offset and data), which C leaves undefined. -/
structure Master where
  values : List Int
  terminated_cnt : Nat
  sorted_cnt : Nat
  stray : List (Int × List Int)
  deriving DecidableEq

/-- One control message as the coordinator meets it: `MPI_Recv` from `MPI_ANY_SOURCE` with
`TAG_SVC` yields `service` and the source rank `src`; `data` is what the next `TAG_ARRAY`
message from `src` carries (read in the `default` branch only). -/
structure Event where
  src : Nat
  service : Int
  data : List Int
  deriving DecidableEq

/-- The routine `master_send_array(array, SIZE, INDEX, DST)`; `array` is the cells from the
pointer on. -/
def master_send_array (array : List Int) (SIZE : Nat) (INDEX : Int) (DST : Nat) : List Msg :=
  [Msg.svc DST INDEX, Msg.array DST (array.take SIZE)]

/-- The routine `master_send_terminate(DST)`. -/
def master_send_terminate (DST : Nat) : List Msg :=
  [Msg.svc DST SVC_TERMINATE]

/-- The routine `master_receive_array(&values[off], ARRAY_SZ, INDEX, SRC)`: the receive
stores into the cells from offset `off` on.  `none` when the store does not lie inside
`values`. -/
def master_receive_array (values : List Int) (off : Int) (ARRAY_SZ : Nat) (data : List Int) :
    Option (List Int) :=
  if 0 ≤ off ∧ off + ((data.take ARRAY_SZ).length : Int) ≤ (values.length : Int) then
    some (values.take off.toNat ++ mpi_recv (values.drop off.toNat) ARRAY_SZ data)
  else none

/-- Body of the `while` loop of `parallel_master` after the `MPI_Recv` of the service: the
`switch`.  Returns the new variables and the messages sent.  The offsets
`sorted_cnt*ARRAY_SZ` and `service*ARRAY_SZ` are taken over the integers, which is what
the code computes whenever the product fits an `int` (so for every index in
`[0, ARRAY_CNT)` when `ARRAY_CNT*ARRAY_SZ` fits an `int`); `master_iter32` is the same
switch with the products of the machine. -/
def master_iter (ARRAY_CNT ARRAY_SZ : Nat) (st : Master) (e : Event) : Master × List Msg :=
  if e.service = SVC_REQUEST then
    if st.sorted_cnt < ARRAY_CNT then
      ({ st with sorted_cnt := st.sorted_cnt + 1 },
        master_send_array (st.values.drop (st.sorted_cnt * ARRAY_SZ)) ARRAY_SZ
          (st.sorted_cnt : Int) e.src)
    else
      ({ st with terminated_cnt := st.terminated_cnt + 1 }, master_send_terminate e.src)
  else
    match master_receive_array st.values (e.service * (ARRAY_SZ : Int)) ARRAY_SZ e.data with
    | some values1 => ({ st with values := values1 }, [])
    | none =>
      ({ st with stray := st.stray ++ [(e.service * (ARRAY_SZ : Int), e.data.take ARRAY_SZ)] }, [])

/-- The loop `while(terminated_cnt < SLAVE_CNT)` of `parallel_master` over the control
messages that arrive, with the messages sent so far.  When the list runs out with the
guard still true the coordinator is blocked in `MPI_Recv`. -/
def master_loop (SLAVE_CNT ARRAY_CNT ARRAY_SZ : Nat) :
    Master × List Msg → List Event → Master × List Msg
  | c, [] => c
  | c, e :: es =>
    if c.1.terminated_cnt < SLAVE_CNT then
      master_loop SLAVE_CNT ARRAY_CNT ARRAY_SZ
        ((master_iter ARRAY_CNT ARRAY_SZ c.1 e).1, c.2 ++ (master_iter ARRAY_CNT ARRAY_SZ c.1 e).2) es
    else c

/-- Coordinator variables at loop entry: `terminated_cnt = 0`, `sorted_cnt = 0`. -/
def master_init (values : List Int) : Master :=
  { values := values, terminated_cnt := 0, sorted_cnt := 0, stray := [] }

/-- The routine `parallel_master(SLAVE_CNT, ARRAY_CNT, ARRAY_SZ)` on the outcome of `malloc`
and the control messages that arrive: the return code (`none` while the loop has not
ended), and the variables and messages sent when the messages run out. -/
def parallel_master (SLAVE_CNT ARRAY_CNT ARRAY_SZ : Nat) (block : Option (List Int))
    (events : List Event) : Option Int × Option (Master × List Msg) :=
  match block with
  | none => (some 1, none)
  | some values =>
    let c := master_loop SLAVE_CNT ARRAY_CNT ARRAY_SZ
      (master_init (populate_matrix values (ARRAY_CNT * ARRAY_SZ)), []) events
    (if c.1.terminated_cnt < SLAVE_CNT then none else some 0, some c)

/-! ## Coordinator with the `int` products of the machine (bubblesort.c lines 174-199) -/

/-- The value a 32-bit two's complement `int` holds when the mathematical result of an
operation is `x`: `x` itself when `-2^31 ≤ x < 2^31`, else `x` reduced modulo `2^32`. -/
def int_wrap (x : Int) : Int :=
  (x + 2147483648) % 4294967296 - 2147483648

/-- The product `a * b` of two `int` operands as the machine computes it. -/
def int_mul (a b : Int) : Int :=
  int_wrap (a * b)

/-- Body of the `while` loop of `parallel_master` after the `MPI_Recv` of the service, with
the offsets `sorted_cnt*ARRAY_SZ` and `service*ARRAY_SZ` computed as `int` products.
`none` when the `MPI_Send` would read, or the `MPI_Recv` would store, outside `values`: C
leaves that undefined and nothing is said about it. -/
def master_iter32 (ARRAY_CNT ARRAY_SZ : Nat) (st : Master) (e : Event) :
    Option (Master × List Msg) :=
  if e.service = SVC_REQUEST then
    if st.sorted_cnt < ARRAY_CNT then
      if 0 ≤ int_mul (st.sorted_cnt : Int) (ARRAY_SZ : Int) ∧
          int_mul (st.sorted_cnt : Int) (ARRAY_SZ : Int) + (ARRAY_SZ : Int)
            ≤ (st.values.length : Int) then
        some ({ st with sorted_cnt := st.sorted_cnt + 1 },
          master_send_array
            (st.values.drop (int_mul (st.sorted_cnt : Int) (ARRAY_SZ : Int)).toNat) ARRAY_SZ
            (st.sorted_cnt : Int) e.src)
      else none
    else
      some ({ st with terminated_cnt := st.terminated_cnt + 1 }, master_send_terminate e.src)
  else
    match master_receive_array st.values (int_mul e.service (ARRAY_SZ : Int)) ARRAY_SZ
        e.data with
    | some values1 => some ({ st with values := values1 }, [])
    | none => none

/-- Body of the `while` loop of the coordinator in parallel.c after the `MPI_Recv` of the
service, with the macros `N` and `M` as arguments: the two `MPI_Send` of the request
branch, the `MPI_Send` of `service = SVC_TERMINATE`, and the `MPI_Recv` into
`&values[service*M]` are written out in place.  As in `master_iter` the offsets are taken
over the integers, which is what the code computes whenever the product fits an `int`. -/
def parallel_c_iter (N M : Nat) (st : Master) (e : Event) : Master × List Msg :=
  if e.service = SVC_REQUEST then
    if st.sorted_cnt < N then
      ({ st with sorted_cnt := st.sorted_cnt + 1 },
        [Msg.svc e.src (st.sorted_cnt : Int),
          Msg.array e.src ((st.values.drop (st.sorted_cnt * M)).take M)])
    else
      ({ st with terminated_cnt := st.terminated_cnt + 1 }, [Msg.svc e.src SVC_TERMINATE])
  else
    if 0 ≤ e.service * (M : Int) ∧
        e.service * (M : Int) + ((e.data.take M).length : Int) ≤ (st.values.length : Int) then
      ({ st with values := st.values.take (e.service * (M : Int)).toNat
          ++ mpi_recv (st.values.drop (e.service * (M : Int)).toNat) M e.data }, [])
    else
      ({ st with stray := st.stray ++ [(e.service * (M : Int), e.data.take M)] }, [])

/-- The loop `while(terminated_cnt < size - 1)` of parallel.c over the control messages
that arrive; `SLAVE_CNT` stands for `size - 1`. -/
def parallel_c_loop (SLAVE_CNT N M : Nat) : Master × List Msg → List Event → Master × List Msg
  | c, [] => c
  | c, e :: es =>
    if c.1.terminated_cnt < SLAVE_CNT then
      parallel_c_loop SLAVE_CNT N M
        ((parallel_c_iter N M c.1 e).1, c.2 ++ (parallel_c_iter N M c.1 e).2) es
    else c

/-- The indices carried by the `Assign` messages of a trace: the service values other
than `SVC_TERMINATE`, which the worker's `switch` takes as an array index. -/
def assigns : List Msg → List Int
  | [] => []
  | Msg.svc _ v :: rest => if v = SVC_TERMINATE then assigns rest else v :: assigns rest
  | Msg.array _ _ :: rest => assigns rest

/-- The ranks to which a trace sends `Terminate`, in order. -/
def terminates : List Msg → List Nat
  | [] => []
  | Msg.svc d v :: rest => if v = SVC_TERMINATE then d :: terminates rest else terminates rest
  | Msg.array _ _ :: rest => terminates rest

/-- No control message that the loop processes comes from a rank to which the
coordinator has already sent `Terminate`. -/
def obedient (SLAVE_CNT ARRAY_CNT ARRAY_SZ : Nat) : Master × List Msg → List Event → Bool
  | _, [] => true
  | c, e :: es =>
    if c.1.terminated_cnt < SLAVE_CNT then
      decide (e.src ∉ terminates c.2) &&
        obedient SLAVE_CNT ARRAY_CNT ARRAY_SZ
          ((master_iter ARRAY_CNT ARRAY_SZ c.1 e).1, c.2 ++ (master_iter ARRAY_CNT ARRAY_SZ c.1 e).2) es
    else true

/-- What holds of the coordinator's counters and of the messages it has sent, at every
point of the loop: the indices assigned are `0 .. sorted_cnt - 1` in order, `sorted_cnt`
is at most `ARRAY_CNT`, `terminated_cnt` counts the Terminates sent, and all of the
`ARRAY_CNT` indices were assigned before the first Terminate. -/
def MasterInv (ARRAY_CNT : Nat) (c : Master × List Msg) : Prop :=
  assigns c.2 = (List.range c.1.sorted_cnt).map Int.ofNat ∧
    c.1.sorted_cnt ≤ ARRAY_CNT ∧
    (terminates c.2).length = c.1.terminated_cnt ∧
    (0 < c.1.terminated_cnt → c.1.sorted_cnt = ARRAY_CNT) ∧
    (∀ pre d post, c.2 = pre ++ Msg.svc d SVC_TERMINATE :: post →
      assigns pre = (List.range ARRAY_CNT).map Int.ofNat)

/-! ## Worker (`parallel_slave`, `slave_work`, bubblesort.c lines 249-316) -/

/-- The response a worker meets after its request: the service value and what the next
`TAG_ARRAY` message from the coordinator carries (read in the `default` branch only). -/
structure Reply where
  service : Int
  data : List Int
  deriving DecidableEq

/-- The routine `slave_work(array, ARRAY_SZ, IDX, RANK, MASTER)`: receive, sort, send the
index, send the array.  Returns the buffer and the messages sent. -/
def slave_work (array : List Int) (ARRAY_SZ : Nat) (IDX : Int) (MASTER : Nat) (data : List Int) :
    List Int × List Msg :=
  let array1 := mpi_recv array ARRAY_SZ data
  let array2 := bubblesort array1 ARRAY_SZ
  (array2, [Msg.svc MASTER IDX, Msg.array MASTER (array2.take ARRAY_SZ)])

/-- The `switch` of the worker loop on the response: new buffer, messages sent, and the
flag `terminate`. -/
def slave_switch (ARRAY_SZ MASTER : Nat) (values : List Int) (r : Reply) :
    List Int × List Msg × Bool :=
  if r.service = SVC_TERMINATE then (values, [], true)
  else
    ((slave_work values ARRAY_SZ r.service MASTER r.data).1,
      (slave_work values ARRAY_SZ r.service MASTER r.data).2, false)

/-- The loop `while(!terminate)` of `parallel_slave` over the responses that arrive: each
iteration sends `SVC_REQUEST`, then runs the switch.  Returns the messages sent and the
return code, `none` while the worker is blocked in `MPI_Recv`. -/
def slave_loop (ARRAY_SZ MASTER : Nat) : List Int → List Reply → List Msg × Option Int
  | _, [] => ([Msg.svc MASTER SVC_REQUEST], none)
  | values, r :: rs =>
    if (slave_switch ARRAY_SZ MASTER values r).2.2 then
      (Msg.svc MASTER SVC_REQUEST :: (slave_switch ARRAY_SZ MASTER values r).2.1, some 0)
    else
      (Msg.svc MASTER SVC_REQUEST :: (slave_switch ARRAY_SZ MASTER values r).2.1
          ++ (slave_loop ARRAY_SZ MASTER (slave_switch ARRAY_SZ MASTER values r).1 rs).1,
        (slave_loop ARRAY_SZ MASTER (slave_switch ARRAY_SZ MASTER values r).1 rs).2)

/-- The routine `parallel_slave(RANK, ARRAY_SZ, MASTER)` on the outcome of `malloc` and the
responses that arrive. -/
def parallel_slave (ARRAY_SZ MASTER : Nat) (block : Option (List Int)) (replies : List Reply) :
    List Msg × Option Int :=
  match block with
  | none => ([], some 1)
  | some values => slave_loop ARRAY_SZ MASTER values replies

/-! ## Coordinator and workers together -/

/-- A worker between two receives: its buffer, the messages it has sent that the
coordinator has not received yet (in order), and its flag `terminate`. -/
structure Slave where
  values : List Int
  outbox : List Msg
  terminate : Bool
  deriving DecidableEq

/-- The coordinator and the workers, by rank. -/
structure System where
  master : Master
  sent : List Msg
  slaves : List Slave
  deriving DecidableEq

/-- A worker that has entered its loop and sent its first request. -/
def slave_init (MASTER : Nat) (values : List Int) : Slave :=
  { values := values, outbox := [Msg.svc MASTER SVC_REQUEST], terminate := false }

/-- The worker takes the coordinator's response off the channel and runs on until it is
blocked in its next receive (or has left the loop). -/
def slave_resume (ARRAY_SZ MASTER : Nat) (sl : Slave) (out : List Msg) : Slave :=
  match out with
  | Msg.svc _ service :: rest =>
    let data := match rest with
      | Msg.array _ d :: _ => d
      | _ => []
    let r := slave_switch ARRAY_SZ MASTER sl.values ⟨service, data⟩
    { values := r.1,
      outbox := if r.2.2 then r.2.1 else r.2.1 ++ [Msg.svc MASTER SVC_REQUEST],
      terminate := r.2.2 }
  | _ => sl

/-- One iteration of the coordinator loop in which `MPI_ANY_SOURCE` matches worker `r`: the
coordinator takes the service message at the head of the worker's channel (and, in the
`default` branch, the array message behind it), and the worker takes the response. -/
def system_step (ARRAY_CNT ARRAY_SZ : Nat) (sys : System) (r : Nat) : System :=
  match sys.slaves[r]? with
  | none => sys
  | some sl =>
    match sl.outbox with
    | Msg.svc _ service :: rest =>
      let data := match rest with
        | Msg.array _ d :: _ => d
        | _ => []
      let rest1 := if service = SVC_REQUEST then rest else rest.drop 1
      let m := master_iter ARRAY_CNT ARRAY_SZ sys.master ⟨r, service, data⟩
      let sl1 := slave_resume ARRAY_SZ sys.slaves.length { sl with outbox := rest1 } m.2
      { master := m.1, sent := sys.sent ++ m.2, slaves := sys.slaves.set r sl1 }
    | _ => sys

/-- The coordinator loop with the workers attached; the list gives, for each iteration, the
worker whose message `MPI_ANY_SOURCE` matches. -/
def system_run (ARRAY_CNT ARRAY_SZ : Nat) : System → List Nat → System
  | sys, [] => sys
  | sys, r :: rs =>
    if sys.master.terminated_cnt < sys.slaves.length then
      system_run ARRAY_CNT ARRAY_SZ (system_step ARRAY_CNT ARRAY_SZ sys r) rs
    else sys

/-- The run at loop entry: the coordinator holds the Job Set `values`, worker `r` holds the
buffer `bufs[r]` and has sent its first request; the coordinator has rank `|bufs|`. -/
def system_init (values : List Int) (bufs : List (List Int)) : System :=
  { master := master_init values, sent := [], slaves := bufs.map (slave_init bufs.length) }

/-- Worker `sl` holds unit `k`: it has sent the index `k`, the sorted payload of the
original unit `k` and its next request, and the coordinator has received none of them. -/
def Holds (W M : Nat) (orig : List Int) (sl : Slave) (k : Nat) : Prop :=
  sl.outbox = [Msg.svc W (k : Int), Msg.array W (bubblesort (unit M orig k) M),
    Msg.svc W SVC_REQUEST]

/-- The three states in which a worker can be while the coordinator is in `MPI_Recv`:
its request is pending, it holds a unit below `sorted_cnt`, or it has left its loop. -/
def SlaveOk (W M : Nat) (orig : List Int) (sorted_cnt : Nat) (sl : Slave) : Prop :=
  sl.values.length = M ∧
    ((sl.outbox = [Msg.svc W SVC_REQUEST] ∧ sl.terminate = false) ∨
      (∃ k, k < sorted_cnt ∧ Holds W M orig sl k ∧ sl.terminate = false) ∨
      (sl.outbox = [] ∧ sl.terminate = true))

/-- What holds of the coordinator and the workers together at every iteration, for a run
started on the Job Set `orig`: the units not yet assigned are as in `orig`, and every
assigned unit is either stored sorted in the Job Set or held by a worker. -/
def SysInv (N M : Nat) (orig : List Int) (sys : System) : Prop :=
  sys.master.values.length = N * M ∧
    sys.master.sorted_cnt ≤ N ∧
    (∀ (i : Nat) (sl : Slave), sys.slaves[i]? = some sl →
      SlaveOk sys.slaves.length M orig sys.master.sorted_cnt sl) ∧
    sys.master.terminated_cnt = sys.slaves.countP (fun sl => sl.terminate) ∧
    (0 < sys.master.terminated_cnt → sys.master.sorted_cnt = N) ∧
    (∀ k, k < N → sys.master.sorted_cnt ≤ k → unit M sys.master.values k = unit M orig k) ∧
    (∀ k, k < sys.master.sorted_cnt →
      unit M sys.master.values k = bubblesort (unit M orig k) M ∨
        ∃ (i : Nat) (sl : Slave), sys.slaves[i]? = some sl ∧ Holds sys.slaves.length M orig sl k)

/-- A bound on the number of loop iterations still to come in which the coordinator
receives a message: three per unit not yet assigned (assign, and later store), two per
worker not yet terminated, one per unit held by a worker. -/
def remaining (N : Nat) (sys : System) : Nat :=
  3 * (N - sys.master.sorted_cnt) + 2 * (sys.slaves.length - sys.master.terminated_cnt)
    + sys.slaves.countP (fun sl => decide (sl.outbox.length = 3))

/-! ## List-level description of the sort loops -/

/-- One pass seen on the cells from the anchor on: the anchor value `x` is
compared with each later cell in turn and exchanged with it when the cell is
smaller.  Returns the final anchor, the later cells, and whether a swap
occurred. -/
def anchorPass : Int → List Int → Int × List Int × Bool
  | x, [] => (x, [], false)
  | x, y :: ys =>
    if y < x then ((anchorPass y ys).1, x :: (anchorPass y ys).2.1, true)
    else ((anchorPass x ys).1, y :: (anchorPass x ys).2.1, (anchorPass x ys).2.2)

/-- The passes seen on the cells from the current anchor on, with the value of
`swapped` left by the previous pass; the first argument bounds the recursion. -/
def passes : Nat → Bool → List Int → List Int
  | 0, _, l => l
  | _ + 1, _, [] => []
  | _ + 1, false, l => l
  | n + 1, true, x :: rest =>
    (anchorPass x rest).1 :: passes n (anchorPass x rest).2.2 (anchorPass x rest).2.1

/-! ## Progress of the sort loop -/

/-- The variables `array` and `swapped` of `bubblesort(array, SIZE)` when `k` passes of the
outer loop are complete (so `i = k`): `none` when the guard `swapped && i < SIZE` ended
the loop before the `k`-th pass. -/
def after_passes (SIZE : Nat) : Nat → List Int → Option (List Int × Bool)
  | 0, array => some (array, true)
  | k + 1, array =>
    match after_passes SIZE k array with
    | none => none
    | some st =>
      if st.2 && decide (k < SIZE) then some (bubblesort_pass SIZE k st.1) else none

/-! ## Sort loop of the worker in parallel.c (lines 194-206), written inline -/

/-- Body of the inner loop of parallel.c at index `j` with anchor `i`, on the local buffer
`values`. -/
def parallel_c_sort_body (i : Nat) (st : List Int × Bool) (j : Nat) : List Int × Bool :=
  if st.1.getD j 0 < st.1.getD i 0 then
    let swap := st.1.getD i 0
    let values1 := st.1.set i (st.1.getD j 0)
    (values1.set j swap, true)
  else st

/-- Inner loop `for(int j = i + 1; j < M; j++)` of parallel.c, entered with
`swapped = false`. -/
def parallel_c_sort_pass (M i : Nat) (values : List Int) : List Int × Bool :=
  (List.range' (i + 1) (M - (i + 1))).foldl (parallel_c_sort_body i) (values, false)

/-- Outer loop `for(int i = 0; swapped && i < M; i++)` of parallel.c; the first argument
bounds the number of guard evaluations. -/
def parallel_c_sort_outer (M : Nat) : Nat → Nat → Bool → List Int → List Int
  | 0, _, _, values => values
  | fuel + 1, i, swapped, values =>
    if swapped && decide (i < M) then
      let r := parallel_c_sort_pass M i values
      parallel_c_sort_outer M fuel (i + 1) r.2 r.1
    else values

/-- The sort of the worker of parallel.c on its buffer: `swapped = true`, `i = 0`. -/
def parallel_c_sort (values : List Int) (M : Nat) : List Int :=
  parallel_c_sort_outer M (M + 1) 0 true values

/-! ## Sort loop of sequential.c (lines 68-83), written inline -/

/-- Body of the inner loop of sequential.c for array `a` at index `j` with anchor `i`: the
cells are addressed as `values[a*M + j]` and `values[a*M + i]`. -/
def sequential_c_body (a M i : Nat) (st : List Int × Bool) (j : Nat) : List Int × Bool :=
  if st.1.getD (a * M + j) 0 < st.1.getD (a * M + i) 0 then
    let swap := st.1.getD (a * M + i) 0
    let values1 := st.1.set (a * M + i) (st.1.getD (a * M + j) 0)
    (values1.set (a * M + j) swap, true)
  else st

/-- Inner loop `for(int j = i + 1; j < M; j++)` of sequential.c, entered with
`swapped = false`. -/
def sequential_c_pass (a M i : Nat) (values : List Int) : List Int × Bool :=
  (List.range' (i + 1) (M - (i + 1))).foldl (sequential_c_body a M i) (values, false)

/-- Outer loop `for(int i = 0; swapped && i < M; i++)` of sequential.c for array `a`; the
first argument bounds the number of guard evaluations. -/
def sequential_c_outer (a M : Nat) : Nat → Nat → Bool → List Int → List Int
  | 0, _, _, values => values
  | fuel + 1, i, swapped, values =>
    if swapped && decide (i < M) then
      let r := sequential_c_pass a M i values
      sequential_c_outer a M fuel (i + 1) r.2 r.1
    else values

/-- Body of the loop `for(int a = 0; a < N; a++)` of sequential.c: the sort of array `a`
in place, `swapped = true`, `i = 0`. -/
def sequential_c_sort_unit (M : Nat) (values : List Int) (a : Nat) : List Int :=
  sequential_c_outer a M (M + 1) 0 true values

/-- The loop `for(int a = 0; a < N; a++)` of sequential.c. -/
def sequential_c_sort (N M : Nat) (values : List Int) : List Int :=
  (List.range N).foldl (sequential_c_sort_unit M) values

/-! ## Role selection (`main`, `parallel`, bubblesort.c lines 33-76, 127-138) -/

/-- The routine a participant calls, with its arguments. -/
inductive Role where
  | sequential (ARRAY_CNT ARRAY_SZ : Nat)
  | master (SLAVE_CNT ARRAY_CNT ARRAY_SZ : Nat)
  | slave (RANK ARRAY_SZ MASTER : Nat)
  deriving DecidableEq

/-- The routine `parallel(SIZE, RANK, ARRAY_CNT, ARRAY_SZ)`: the call it makes.  The test
`RANK == SIZE - 1` is on ints. -/
def parallel (SIZE RANK ARRAY_CNT ARRAY_SZ : Nat) : Role :=
  if (RANK : Int) = (SIZE : Int) - 1 then Role.master (SIZE - 1) ARRAY_CNT ARRAY_SZ
  else Role.slave RANK ARRAY_SZ (SIZE - 1)

/-- The `if(size == 1)` of `main`: the call it makes for the communicator size and the
rank that `MPI_Comm_size` and `MPI_Comm_rank` give. -/
def main (size rank ARRAY_CNT ARRAY_SZ : Nat) : Role :=
  if size = 1 then Role.sequential ARRAY_CNT ARRAY_SZ
  else parallel size rank ARRAY_CNT ARRAY_SZ

/-- What the call does on the channel and what it returns: the messages it sends and its
return code (`none` while it is blocked in a receive), given the outcome of `malloc`, the
control messages that arrive (read by the coordinator only) and the responses that arrive
(read by a worker only).  `sequential` contains no `MPI_Send` and no `MPI_Recv`. -/
def run_role (role : Role) (block : Option (List Int)) (events : List Event)
    (replies : List Reply) : List Msg × Option Int :=
  match role with
  | Role.sequential ARRAY_CNT ARRAY_SZ => ([], some (sequential ARRAY_CNT ARRAY_SZ block).1)
  | Role.master SLAVE_CNT ARRAY_CNT ARRAY_SZ =>
    (match (parallel_master SLAVE_CNT ARRAY_CNT ARRAY_SZ block events).2 with
      | none => []
      | some c => c.2,
      (parallel_master SLAVE_CNT ARRAY_CNT ARRAY_SZ block events).1)
  | Role.slave _ ARRAY_SZ MASTER => parallel_slave ARRAY_SZ MASTER block replies

theorem getD_at_length (pre : List Int) (x : Int) (post : List Int) (d : Int) :
    (pre ++ x :: post).getD pre.length d = x := by
  induction pre with
  | nil => rfl
  | cons a pre ih => simpa using ih

theorem set_at_length (pre : List Int) (x v : Int) (post : List Int) :
    (pre ++ x :: post).set pre.length v = pre ++ v :: post := by
  induction pre with
  | nil => rfl
  | cons a pre ih => simp [ih]

theorem anchorPass_length (x : Int) (l : List Int) : (anchorPass x l).2.1.length = l.length := by
  induction l generalizing x with
  | nil => rfl
  | cons y ys ih =>
    unfold anchorPass
    split <;> simp [ih]

/-- The inner loop of the code, run on an array laid out as
`pre ++ x :: done ++ todo ++ tail` from index `j = |pre| + 1 + |done|` for
`|todo|` iterations, performs `anchorPass x todo`. -/
theorem foldl_body_eq (todo : List Int) : ∀ (pre : List Int) (x : Int) (done tail : List Int)
    (s : Bool),
    (List.range' (pre.length + 1 + done.length) todo.length).foldl (bubblesort_body pre.length)
        (pre ++ x :: (done ++ (todo ++ tail)), s)
      = (pre ++ (anchorPass x todo).1 :: (done ++ ((anchorPass x todo).2.1 ++ tail)),
          s || (anchorPass x todo).2.2) := by
  induction todo with
  | nil => intro pre x done tail s; simp [anchorPass]
  | cons y ys ih =>
    intro pre x done tail s
    have hj : (pre ++ x :: (done ++ (y :: ys ++ tail))).getD (pre.length + 1 + done.length) 0 = y := by
      have hl : pre ++ x :: (done ++ (y :: ys ++ tail)) = (pre ++ x :: done) ++ y :: (ys ++ tail) := by
        simp
      have hn : pre.length + 1 + done.length = (pre ++ x :: done).length := by
        simp; omega
      rw [hl, hn]
      exact getD_at_length (pre ++ x :: done) y (ys ++ tail) 0
    have hi : (pre ++ x :: (done ++ (y :: ys ++ tail))).getD pre.length 0 = x :=
      getD_at_length pre x _ 0
    have hset : ((pre ++ x :: (done ++ (y :: ys ++ tail))).set pre.length y).set
        (pre.length + 1 + done.length) x = pre ++ y :: ((done ++ [x]) ++ (ys ++ tail)) := by
      rw [set_at_length]
      have hl : pre ++ y :: (done ++ (y :: ys ++ tail)) = (pre ++ y :: done) ++ y :: (ys ++ tail) := by
        simp
      have hn : pre.length + 1 + done.length = (pre ++ y :: done).length := by
        simp; omega
      rw [hl, hn, set_at_length]
      simp
    have hidx : pre.length + 1 + done.length + 1 = pre.length + 1 + (done ++ [x]).length := by
      simp [Nat.add_assoc]
    have hidy : pre.length + 1 + done.length + 1 = pre.length + 1 + (done ++ [y]).length := by
      simp [Nat.add_assoc]
    rw [List.length_cons, List.range'_succ, List.foldl_cons]
    by_cases hlt : y < x
    · have hb : bubblesort_body pre.length (pre ++ x :: (done ++ (y :: ys ++ tail)), s)
          (pre.length + 1 + done.length) = (pre ++ y :: ((done ++ [x]) ++ (ys ++ tail)), true) := by
        simp only [bubblesort_body, hj, hi, hlt, if_true, hset]
      rw [hb, hidx, ih pre y (done ++ [x]) tail true]
      simp [anchorPass, hlt]
    · have hb : bubblesort_body pre.length (pre ++ x :: (done ++ (y :: ys ++ tail)), s)
          (pre.length + 1 + done.length) = (pre ++ x :: ((done ++ [y]) ++ (ys ++ tail)), s) := by
        simp only [bubblesort_body, hj, hi, hlt, if_false]
        simp
      rw [hb, hidy, ih pre x (done ++ [y]) tail s]
      simp [anchorPass, hlt]

/-- One pass of the code at anchor `|pre|` over `SIZE = |pre| + 1 + |rest|` cells
is `anchorPass` on the cells from the anchor on; cells before the anchor and
cells from `SIZE` on are not touched. -/
theorem bubblesort_pass_eq (pre : List Int) (x : Int) (rest tail : List Int) :
    bubblesort_pass (pre.length + 1 + rest.length) pre.length (pre ++ x :: (rest ++ tail))
      = (pre ++ (anchorPass x rest).1 :: ((anchorPass x rest).2.1 ++ tail),
          (anchorPass x rest).2.2) := by
  have h := foldl_body_eq rest pre x [] tail false
  simp only [List.length_nil, Nat.add_zero, List.nil_append, Bool.false_or] at h
  unfold bubblesort_pass
  have hn : pre.length + 1 + rest.length - (pre.length + 1) = rest.length := by omega
  rw [hn]
  exact h

/-- The outer loop of the code started at anchor `|pre|` on `pre ++ l ++ tail`
with `SIZE = |pre| + |l|` is `passes` on `l`, for the same bound. -/
theorem bubblesort_outer_eq (fuel : Nat) : ∀ (pre l tail : List Int) (s : Bool),
    bubblesort_outer (pre.length + l.length) fuel pre.length s (pre ++ (l ++ tail))
      = pre ++ (passes fuel s l ++ tail) := by
  induction fuel with
  | zero => intro pre l tail s; simp [bubblesort_outer, passes]
  | succ n ih =>
    intro pre l tail s
    cases l with
    | nil => simp [bubblesort_outer, passes]
    | cons x rest =>
      cases s with
      | false => simp [bubblesort_outer, passes]
      | true =>
        have hsz : pre.length + (x :: rest).length = pre.length + 1 + rest.length := by
          simp; omega
        have hlt : pre.length < pre.length + 1 + rest.length := by omega
        have hi : pre.length + 1 = (pre ++ [(anchorPass x rest).1]).length := by simp
        have hl : pre ++ (anchorPass x rest).1 :: ((anchorPass x rest).2.1 ++ tail)
            = (pre ++ [(anchorPass x rest).1]) ++ ((anchorPass x rest).2.1 ++ tail) := by simp
        rw [hsz]
        simp only [bubblesort_outer, List.cons_append, Bool.true_and, hlt, decide_True, if_true,
          bubblesort_pass_eq, passes]
        rw [hl, hi, ← anchorPass_length x rest, ih]
        simp

/-- Once the bound covers the cells, a larger bound changes nothing: the guard
`i < SIZE` ends the loop first. -/
theorem passes_fuel (n : Nat) : ∀ (s : Bool) (l : List Int), l.length ≤ n →
    passes n s l = passes l.length s l := by
  induction n with
  | zero => intro s l h; simp at h; subst h; rfl
  | succ n ih =>
    intro s l h
    cases l with
    | nil => cases s <;> rfl
    | cons x rest =>
      cases s with
      | false => simp [passes]
      | true =>
        have h1 : (anchorPass x rest).2.1.length ≤ n := by
          rw [anchorPass_length]; simpa using h
        simp only [passes, List.length_cons]
        rw [ih _ _ h1, anchorPass_length]

/-- The routine on `SIZE = |l|` cells followed by further cells `tail`: the
first `|l|` cells become `passes |l| true l`, the cells from `SIZE` on are not
touched. -/
theorem bubblesort_append (l tail : List Int) :
    bubblesort (l ++ tail) l.length = passes l.length true l ++ tail := by
  have h := bubblesort_outer_eq (l.length + 1) [] l tail true
  simp only [List.length_nil, Nat.zero_add, List.nil_append] at h
  unfold bubblesort
  rw [h, passes_fuel (l.length + 1) true l (Nat.le_succ _)]

/-- The bound `SIZE + 1` in `bubblesort` does not cut the loop short: any larger bound
gives the same array. -/
theorem bubblesort_outer_fuel (l : List Int) (extra : Nat) :
    bubblesort_outer l.length (l.length + 1 + extra) 0 true l = bubblesort l l.length := by
  have h := bubblesort_outer_eq (l.length + 1 + extra) [] l [] true
  have h2 := bubblesort_append l []
  simp only [List.length_nil, Nat.zero_add, List.nil_append, List.append_nil] at h h2
  rw [h, h2, passes_fuel (l.length + 1 + extra) true l (by omega)]

theorem bubblesort_eq_passes (l : List Int) : bubblesort l l.length = passes l.length true l := by
  have h := bubblesort_append l []
  simpa using h

theorem bubblesort_eq_passes_of_length (l : List Int) (M : Nat) (h : l.length = M) :
    bubblesort l M = passes M true l := by
  subst h
  exact bubblesort_eq_passes l

theorem anchorPass_perm (l : List Int) : ∀ x : Int,
    ((anchorPass x l).1 :: (anchorPass x l).2.1).Perm (x :: l) := by
  induction l with
  | nil => intro x; simp [anchorPass]
  | cons y ys ih =>
    intro x
    unfold anchorPass
    split
    · exact (List.Perm.swap _ _ _).trans ((ih y).cons x)
    · exact (List.Perm.swap _ _ _).trans (((ih x).cons y).trans (List.Perm.swap _ _ _))

theorem passes_perm (n : Nat) : ∀ (s : Bool) (l : List Int), (passes n s l).Perm l := by
  induction n with
  | zero => intro s l; simp [passes]
  | succ n ih =>
    intro s l
    cases l with
    | nil => cases s <;> simp [passes]
    | cons x rest =>
      cases s with
      | false => simp [passes]
      | true =>
        simp only [passes]
        exact ((ih _ _).cons _).trans (anchorPass_perm rest x)

theorem sort_permutes (l : List Int) (M : Nat) (h : l.length = M) :
    (bubblesort l M).Perm l := by
  rw [bubblesort_eq_passes_of_length l M h]
  exact passes_perm _ _ _

theorem passes_nil (n : Nat) (s : Bool) : passes n s [] = [] := by
  cases n <;> cases s <;> rfl

/-- On a strictly descending run the pass moves the last cell to the anchor and
shifts the others one place to the right. -/
theorem anchorPass_desc (l : List Int) : ∀ x : Int, List.Sorted (· > ·) (x :: l) →
    (anchorPass x l).2.1 ++ [(anchorPass x l).1] = x :: l ∧
      (anchorPass x l).2.2 = !l.isEmpty := by
  induction l with
  | nil => intro x _; simp [anchorPass]
  | cons y ys ih =>
    intro x h
    have hyx : y < x := by
      have := List.rel_of_sorted_cons h y (List.mem_cons_self _ _)
      exact this
    have h2 := ih y (List.Sorted.of_cons h)
    simp [anchorPass, hyx, h2.1]

theorem passes_desc (n : Nat) : ∀ l : List Int, l.length ≤ n → List.Sorted (· > ·) l →
    passes n true l = l.reverse := by
  induction n with
  | zero => intro l h _; simp at h; subst h; rfl
  | succ n ih =>
    intro l hlen hd
    cases l with
    | nil => rfl
    | cons x rest =>
      obtain ⟨happ, hflag⟩ := anchorPass_desc rest x hd
      simp only [passes]
      cases rest with
      | nil => simp [anchorPass, passes_nil]
      | cons y ys =>
        have hs : List.Sorted (· > ·) (anchorPass x (y :: ys)).2.1 := by
          have hsub : List.Sublist (anchorPass x (y :: ys)).2.1 (x :: y :: ys) := by
            rw [← happ]; exact List.sublist_append_left _ _
          exact List.Pairwise.sublist hsub hd
        have hl : (anchorPass x (y :: ys)).2.1.length ≤ n := by
          rw [anchorPass_length]; simpa using hlen
        have hf : (anchorPass x (y :: ys)).2.2 = true := by simpa using hflag
        rw [hf, ih _ hl hs]
        have := congrArg List.reverse happ
        simpa using this

theorem bubblesort_desc_reverse (l : List Int) (M : Nat) (hlen : l.length = M)
    (h : List.Sorted (· > ·) l) : bubblesort l M = l.reverse := by
  rw [bubblesort_eq_passes_of_length l M hlen]
  exact passes_desc _ _ (Nat.le_of_eq hlen) h

/-! ## Sort primitive: the claims -/

/-- C3. Sort Primitive permutation: for every int sequence, of every length, the array
after `bubblesort(array, M)` has the same length and is a permutation of the array
before it. -/
theorem bubblesort_perm (array : List Int) :
    (bubblesort array array.length).Perm array ∧
      (bubblesort array array.length).length = array.length := by
  have h : (bubblesort array array.length).Perm array :=
    sort_permutes array array.length rfl
  exact ⟨h, h.length_eq⟩

/-- C2, evaluated at the input `[1, 3, 2]`: the first pass makes no swap, the loop
stops, and the array is returned as it was, with `array[1] > array[2]`. -/
theorem bubblesort_unsorted_output :
    bubblesort [1, 3, 2] 3 = [1, 3, 2] ∧
      ¬ (∀ k, k + 1 < 3 →
        (bubblesort [1, 3, 2] 3).getD k 0 ≤ (bubblesort [1, 3, 2] 3).getD (k + 1) 0) := by
  have h : bubblesort [1, 3, 2] 3 = [1, 3, 2] := by decide
  refine ⟨h, ?_⟩
  rw [h]
  intro hall
  have := hall 1 (by decide)
  revert this
  decide

/-- C10. Stress input: for every strictly descending int sequence, of every length,
`bubblesort` returns the reverse of the input, which is strictly ascending; and
`[5,4,3,2,1]` becomes `[1,2,3,4,5]`. -/
theorem bubblesort_descending (array : List Int) (h : List.Sorted (· > ·) array) :
    bubblesort array array.length = array.reverse ∧
      List.Sorted (· < ·) (bubblesort array array.length) ∧
      bubblesort [5, 4, 3, 2, 1] 5 = [1, 2, 3, 4, 5] := by
  have h1 : bubblesort array array.length = array.reverse :=
    bubblesort_desc_reverse array array.length rfl h
  refine ⟨h1, ?_, by decide⟩
  rw [h1]
  exact List.pairwise_reverse.mpr h

/-- C10 at the designated stress input `[5,4,3,2,1]`. -/
theorem bubblesort_descending_witness :
    List.Sorted (· > ·) ([5, 4, 3, 2, 1] : List Int) ∧
      bubblesort [5, 4, 3, 2, 1] [5, 4, 3, 2, 1].length = [5, 4, 3, 2, 1].reverse :=
  ⟨by decide, (bubblesort_descending [5, 4, 3, 2, 1] (by decide)).1⟩

/-! ## Work units inside the Job Set -/

theorem getElem?_unit (M : Nat) (values : List Int) (k j : Nat) :
    (unit M values k)[j]? = if j < M then values[k * M + j]? else none := by
  unfold unit
  rw [List.getElem?_take, List.getElem?_drop]

theorem unit_length (N M : Nat) (values : List Int) (k : Nat) (hlen : values.length = N * M)
    (hk : k < N) : (unit M values k).length = M := by
  unfold unit
  have h1 : (k + 1) * M ≤ N * M := Nat.mul_le_mul_right M hk
  rw [Nat.add_mul, Nat.one_mul] at h1
  simp only [List.length_take, List.length_drop, hlen]
  omega

/-- Cell `q` after `data` has been stored over the cells `a .. a + |data| - 1`. -/
theorem getElem?_store (values data : List Int) (a q : Nat)
    (ha : a + data.length ≤ values.length) :
    (values.take a ++ (data ++ values.drop (a + data.length)))[q]?
      = if q < a then values[q]? else if q < a + data.length then data[q - a]? else values[q]? := by
  have hta : (values.take a).length = a := by simp; omega
  rw [List.getElem?_append, hta]
  by_cases h1 : q < a
  · simp [h1, List.getElem?_take_of_lt]
  · simp only [h1, if_false]
    rw [List.getElem?_append]
    by_cases h2 : q < a + data.length
    · have h3 : q - a < data.length := by omega
      simp [h2, h3]
    · have h3 : ¬ q - a < data.length := by omega
      simp only [h2, h3, if_false]
      rw [List.getElem?_drop]
      congr 1
      omega

theorem store_length (values data : List Int) (a : Nat) (ha : a + data.length ≤ values.length) :
    (values.take a ++ (data ++ values.drop (a + data.length))).length = values.length := by
  simp only [List.length_append, List.length_take, List.length_drop]
  omega

theorem mpi_recv_exact (buf data : List Int) (M : Nat) (hd : data.length = M) :
    mpi_recv buf M data = data ++ buf.drop M := by
  unfold mpi_recv
  have : data.take M = data := by rw [← hd]; exact List.take_length data
  rw [this, hd]

/-- The receive of the `default` branch for an index inside the Job Set and a payload
of `M` ints: the store lies inside `values`. -/
theorem master_receive_array_valid (N M : Nat) (values data : List Int) (i : Nat)
    (hlen : values.length = N * M) (hi : i < N) (hd : data.length = M) :
    master_receive_array values ((i : Int) * (M : Int)) M data
      = some (values.take (i * M) ++ (data ++ values.drop (i * M + data.length))) := by
  have h1 : (i + 1) * M ≤ N * M := Nat.mul_le_mul_right M hi
  rw [Nat.add_mul, Nat.one_mul] at h1
  have hoff : ((i : Int) * (M : Int)) = ((i * M : Nat) : Int) := by push_cast; rfl
  have htk : data.take M = data := by rw [← hd]; exact List.take_length data
  unfold master_receive_array
  rw [hoff, htk, Int.toNat_natCast]
  have hcond : (0 : Int) ≤ ((i * M : Nat) : Int) ∧
      ((i * M : Nat) : Int) + (data.length : Int) ≤ (values.length : Int) := by
    constructor
    · exact Int.natCast_nonneg _
    · rw [hlen, hd]; exact_mod_cast h1
  rw [if_pos hcond, mpi_recv_exact _ _ _ hd, List.drop_drop, hd]

theorem unit_store_same (N M : Nat) (values data : List Int) (i : Nat)
    (hlen : values.length = N * M) (hi : i < N) (hd : data.length = M) :
    unit M (values.take (i * M) ++ (data ++ values.drop (i * M + data.length))) i = data := by
  have h1 : (i + 1) * M ≤ N * M := Nat.mul_le_mul_right M hi
  rw [Nat.add_mul, Nat.one_mul] at h1
  have ha : i * M + data.length ≤ values.length := by omega
  apply List.ext_getElem?
  intro j
  rw [getElem?_unit, getElem?_store _ _ _ _ ha]
  by_cases hj : j < M
  · have h2 : ¬ i * M + j < i * M := by omega
    have h3 : i * M + j < i * M + data.length := by omega
    have h4 : i * M + j - i * M = j := by omega
    simp only [hj, h2, h3, h4, if_true, if_false]
  · simp only [hj, if_false]
    rw [List.getElem?_eq_none]; omega

theorem unit_store_other (N M : Nat) (values data : List Int) (i k : Nat)
    (hlen : values.length = N * M) (hi : i < N) (hd : data.length = M) (hk : k ≠ i) :
    unit M (values.take (i * M) ++ (data ++ values.drop (i * M + data.length))) k
      = unit M values k := by
  have h1 : (i + 1) * M ≤ N * M := Nat.mul_le_mul_right M hi
  rw [Nat.add_mul, Nat.one_mul] at h1
  have ha : i * M + data.length ≤ values.length := by omega
  apply List.ext_getElem?
  intro j
  rw [getElem?_unit, getElem?_unit, getElem?_store _ _ _ _ ha]
  by_cases hj : j < M
  · simp only [hj, if_true]
    rcases Nat.lt_or_gt_of_ne hk with hlt | hgt
    · have h2 : (k + 1) * M ≤ i * M := Nat.mul_le_mul_right M hlt
      rw [Nat.add_mul, Nat.one_mul] at h2
      have h3 : k * M + j < i * M := by omega
      simp only [h3, if_true]
    · have h2 : (i + 1) * M ≤ k * M := Nat.mul_le_mul_right M hgt
      rw [Nat.add_mul, Nat.one_mul] at h2
      have h3 : ¬ k * M + j < i * M := by omega
      have h4 : ¬ k * M + j < i * M + data.length := by omega
      simp only [h3, h4, if_false]
  · simp only [hj, if_false]

/-! ## Coordinator: one control message -/

theorem natCast_ne_request (i : Nat) : ((i : Int) = SVC_REQUEST) = False := by
  have h : (0 : Int) ≤ (i : Int) := Int.natCast_nonneg i
  simp only [SVC_REQUEST, eq_iff_iff, iff_false]
  omega

/-- C5. Coordinator Request handling: on a Request (-1) from worker `s`, with the Job Set
holding `N` units of `M` cells, if `sorted_cnt < N` the coordinator sends to `s` the
control value `sorted_cnt` and then the `M` cells at offset `sorted_cnt*M`, increments
`sorted_cnt` and leaves `terminated_cnt` and the Job Set as they were; otherwise it sends
Terminate (-2) to `s`, increments `terminated_cnt` and leaves `sorted_cnt` and the Job Set
as they were. -/
theorem master_iter_request (N M : Nat) (st : Master) (s : Nat) (data : List Int)
    (hlen : st.values.length = N * M) :
    (st.sorted_cnt < N →
      (master_iter N M st ⟨s, -1, data⟩).2
          = [Msg.svc s (st.sorted_cnt : Int), Msg.array s (unit M st.values st.sorted_cnt)] ∧
        (unit M st.values st.sorted_cnt).length = M ∧
        (∀ j, j < M →
          (unit M st.values st.sorted_cnt)[j]? = st.values[st.sorted_cnt * M + j]?) ∧
        (master_iter N M st ⟨s, -1, data⟩).1.sorted_cnt = st.sorted_cnt + 1 ∧
        (master_iter N M st ⟨s, -1, data⟩).1.terminated_cnt = st.terminated_cnt ∧
        (master_iter N M st ⟨s, -1, data⟩).1.values = st.values) ∧
    (¬ st.sorted_cnt < N →
      (master_iter N M st ⟨s, -1, data⟩).2 = [Msg.svc s (-2)] ∧
        (master_iter N M st ⟨s, -1, data⟩).1.terminated_cnt = st.terminated_cnt + 1 ∧
        (master_iter N M st ⟨s, -1, data⟩).1.sorted_cnt = st.sorted_cnt ∧
        (master_iter N M st ⟨s, -1, data⟩).1.values = st.values) := by
  constructor
  · intro h
    refine ⟨?_, unit_length N M _ _ hlen h, ?_, ?_, ?_, ?_⟩
    · simp [master_iter, SVC_REQUEST, h, master_send_array, unit]
    · intro j hj
      rw [getElem?_unit, if_pos hj]
    · simp [master_iter, SVC_REQUEST, h]
    · simp [master_iter, SVC_REQUEST, h]
    · simp [master_iter, SVC_REQUEST, h]
  · intro h
    simp [master_iter, SVC_REQUEST, h, master_send_terminate, SVC_TERMINATE]

/-- C5 on a Job Set of two units of two cells: the first request is answered with unit 0,
and a request with both units assigned is answered with Terminate. -/
theorem master_iter_request_witness :
    (master_iter 2 2 (master_init [4, 3, 2, 1]) ⟨0, -1, []⟩).2
        = [Msg.svc 0 0, Msg.array 0 [4, 3]] ∧
      (master_iter 2 2 ⟨[4, 3, 2, 1], 0, 2, []⟩ ⟨1, -1, []⟩).2 = [Msg.svc 1 (-2)] :=
  ⟨((master_iter_request 2 2 (master_init [4, 3, 2, 1]) 0 [] (by decide)).1 (by decide)).1,
    ((master_iter_request 2 2 ⟨[4, 3, 2, 1], 0, 2, []⟩ 1 [] (by decide)).2 (by decide)).1⟩

/-- C6. Coordinator Completed handling: for an index `i` in `[0, N)` and a returned payload
`p` of `M` ints, handling Completed(i) from worker `s` sends no message, leaves both
counters as they were, stores `p` over unit `i` and leaves every cell outside
`i*M .. i*M+M-1`, hence every other unit, as it was. -/
theorem master_iter_completed (N M : Nat) (st : Master) (s i : Nat) (p : List Int)
    (hlen : st.values.length = N * M) (hi : i < N) (hp : p.length = M) :
    (master_iter N M st ⟨s, (i : Int), p⟩).2 = [] ∧
      (master_iter N M st ⟨s, (i : Int), p⟩).1.sorted_cnt = st.sorted_cnt ∧
      (master_iter N M st ⟨s, (i : Int), p⟩).1.terminated_cnt = st.terminated_cnt ∧
      (master_iter N M st ⟨s, (i : Int), p⟩).1.stray = st.stray ∧
      (master_iter N M st ⟨s, (i : Int), p⟩).1.values.length = N * M ∧
      unit M (master_iter N M st ⟨s, (i : Int), p⟩).1.values i = p ∧
      (∀ k, k ≠ i →
        unit M (master_iter N M st ⟨s, (i : Int), p⟩).1.values k = unit M st.values k) ∧
      (∀ q, q < i * M ∨ i * M + M ≤ q →
        (master_iter N M st ⟨s, (i : Int), p⟩).1.values[q]? = st.values[q]?) := by
  have h1 : (i + 1) * M ≤ N * M := Nat.mul_le_mul_right M hi
  rw [Nat.add_mul, Nat.one_mul] at h1
  have ha : i * M + p.length ≤ st.values.length := by omega
  have hit : master_iter N M st ⟨s, (i : Int), p⟩
      = ({ st with values := st.values.take (i * M) ++ (p ++ st.values.drop (i * M + p.length)) },
          []) := by
    simp only [master_iter, natCast_ne_request, if_false,
      master_receive_array_valid N M st.values p i hlen hi hp]
  rw [hit]
  refine ⟨rfl, rfl, rfl, rfl, ?_, unit_store_same N M _ _ i hlen hi hp,
    fun k hk => unit_store_other N M _ _ i k hlen hi hp hk, ?_⟩
  · show (st.values.take (i * M) ++ (p ++ st.values.drop (i * M + p.length))).length = N * M
    rw [store_length _ _ _ ha, hlen]
  · intro q hq
    show (st.values.take (i * M) ++ (p ++ st.values.drop (i * M + p.length)))[q]? = st.values[q]?
    rw [getElem?_store _ _ _ _ ha]
    rcases hq with hq | hq
    · simp [hq]
    · have h2 : ¬ q < i * M := by omega
      have h3 : ¬ q < i * M + p.length := by omega
      simp only [h2, h3, if_false]

/-- C6 on a Job Set of two units of two cells: Completed(1) with payload `[1, 2]` rewrites
unit 1 only. -/
theorem master_iter_completed_witness :
    (master_iter 2 2 ⟨[4, 3, 2, 1], 0, 2, []⟩ ⟨0, ((1 : Nat) : Int), [1, 2]⟩).1.values
        = [4, 3, 1, 2] ∧
      (master_iter 2 2 ⟨[4, 3, 2, 1], 0, 2, []⟩ ⟨0, ((1 : Nat) : Int), [1, 2]⟩).2 = [] :=
  ⟨by decide,
    (master_iter_completed 2 2 ⟨[4, 3, 2, 1], 0, 2, []⟩ 0 1 [1, 2] (by decide) (by decide)
      (by decide)).1⟩

/-! ## Worker: one cycle and the whole trace -/

theorem bubblesort_length (data : List Int) (M : Nat) (hd : data.length = M) :
    (bubblesort data M).length = M := by
  rw [(sort_permutes data M hd).length_eq, hd]

/-- What `slave_work` does with a buffer of `M` cells and a payload of `M` ints. -/
theorem slave_work_exact (M MASTER : Nat) (values data : List Int) (IDX : Int)
    (hv : values.length = M) (hd : data.length = M) :
    slave_work values M IDX MASTER data
      = (bubblesort data M, [Msg.svc MASTER IDX, Msg.array MASTER (bubblesort data M)]) := by
  have h1 : mpi_recv values M data = data := by
    rw [mpi_recv_exact _ _ _ hd, List.drop_of_length_le (Nat.le_of_eq hv), List.append_nil]
  have h2 : (bubblesort data M).take M = bubblesort data M := by
    rw [List.take_of_length_le (Nat.le_of_eq (bubblesort_length data M hd))]
  simp only [slave_work, h1, h2]

theorem slave_loop_terminate (M MASTER : Nat) (values data : List Int) (rs : List Reply) :
    slave_loop M MASTER values (⟨-2, data⟩ :: rs) = ([Msg.svc MASTER (-1)], some 0) := by
  simp [slave_loop, slave_switch, SVC_TERMINATE, SVC_REQUEST]

theorem slave_loop_assign (M MASTER : Nat) (values data : List Int) (idx : Int) (rs : List Reply)
    (hv : values.length = M) (hd : data.length = M) (hidx : idx ≠ -2) :
    slave_loop M MASTER values (⟨idx, data⟩ :: rs)
      = (Msg.svc MASTER (-1) :: Msg.svc MASTER idx :: Msg.array MASTER (bubblesort data M)
            :: (slave_loop M MASTER (bubblesort data M) rs).1,
          (slave_loop M MASTER (bubblesort data M) rs).2) := by
  simp [slave_loop, slave_switch, SVC_TERMINATE, SVC_REQUEST, hidx,
    slave_work_exact M MASTER values data idx hv hd]

theorem slave_loop_head (M MASTER : Nat) (values : List Int) (rs : List Reply) :
    (slave_loop M MASTER values rs).1.head? = some (Msg.svc MASTER (-1)) := by
  cases rs with
  | nil => rfl
  | cons r rs =>
    unfold slave_loop
    split <;> rfl

theorem slave_loop_trace (M MASTER : Nat) (replies : List Reply) : ∀ values : List Int,
    values.length = M → (∀ r ∈ replies, r.service ≠ -2 → r.data.length = M) →
    (slave_loop M MASTER values replies).1
      = ((replies.takeWhile (fun r => decide (r.service ≠ -2))).map
            (fun r => [Msg.svc MASTER (-1), Msg.svc MASTER r.service,
              Msg.array MASTER (bubblesort r.data M)])).flatten
          ++ [Msg.svc MASTER (-1)] := by
  induction replies with
  | nil => intro values _ _; rfl
  | cons r rs ih =>
    intro values hv hall
    by_cases hidx : r.service = -2
    · have hr : r = ⟨-2, r.data⟩ := by cases r; simp_all
      rw [hr, slave_loop_terminate]
      simp
    · have hd : r.data.length = M := hall r (List.mem_cons_self _ _) hidx
      have hr : r = ⟨r.service, r.data⟩ := by cases r; rfl
      rw [hr, slave_loop_assign M MASTER values r.data r.service rs hv hd hidx]
      simp only [List.takeWhile_cons, ne_eq, hidx, not_false_eq_true, decide_True, if_true,
        List.map_cons, List.flatten_cons, List.cons_append, List.nil_append]
      rw [ih (bubblesort r.data M) (bubblesort_length _ _ hd)
        (fun r1 h1 h2 => hall r1 (List.mem_cons_of_mem _ h1) h2)]

/-- C7. Worker cycle: a worker with a buffer of `M` cells sends a Request; on Terminate (-2)
it leaves the loop, sends nothing further and returns 0; on any other control value `idx`
with a payload of `M` ints it sends `idx` unchanged, then one payload equal to
`bubblesort` of the payload received, then a new Request.  Hence, over any sequence of
responses, the messages sent are, for each response before the first Terminate, a
Request, the index received and the sorted payload, and then one last Request. -/
theorem slave_cycle (M MASTER : Nat) (values : List Int) (hv : values.length = M) :
    (∀ data rs, slave_loop M MASTER values (⟨-2, data⟩ :: rs) = ([Msg.svc MASTER (-1)], some 0)) ∧
    (∀ (idx : Int) data rs, idx ≠ -2 → data.length = M →
      slave_loop M MASTER values (⟨idx, data⟩ :: rs)
          = (Msg.svc MASTER (-1) :: Msg.svc MASTER idx :: Msg.array MASTER (bubblesort data M)
                :: (slave_loop M MASTER (bubblesort data M) rs).1,
              (slave_loop M MASTER (bubblesort data M) rs).2) ∧
        (slave_loop M MASTER (bubblesort data M) rs).1.head? = some (Msg.svc MASTER (-1))) ∧
    (∀ replies : List Reply, (∀ r ∈ replies, r.service ≠ -2 → r.data.length = M) →
      (slave_loop M MASTER values replies).1
        = ((replies.takeWhile (fun r => decide (r.service ≠ -2))).map
              (fun r => [Msg.svc MASTER (-1), Msg.svc MASTER r.service,
                Msg.array MASTER (bubblesort r.data M)])).flatten
            ++ [Msg.svc MASTER (-1)]) :=
  ⟨fun data rs => slave_loop_terminate M MASTER values data rs,
    fun idx data rs hidx hd =>
      ⟨slave_loop_assign M MASTER values data idx rs hv hd hidx, slave_loop_head M MASTER _ rs⟩,
    fun replies hall => slave_loop_trace M MASTER replies values hv hall⟩

/-- C7 on a worker with three cells that is assigned unit 4 and then terminated. -/
theorem slave_cycle_witness :
    slave_loop 3 9 [0, 0, 0] [⟨4, [3, 2, 1]⟩, ⟨-2, []⟩]
      = ([Msg.svc 9 (-1), Msg.svc 9 4, Msg.array 9 [1, 2, 3], Msg.svc 9 (-1)], some 0) := by
  have h := ((slave_cycle 3 9 [0, 0, 0] (by decide)).2.1 4 [3, 2, 1] [⟨-2, []⟩] (by decide)
    (by decide)).1
  rw [h]
  decide

/-! ## Coordinator: the loop -/

theorem assigns_append (a b : List Msg) : assigns (a ++ b) = assigns a ++ assigns b := by
  induction a with
  | nil => rfl
  | cons m a ih =>
    cases m with
    | svc d v =>
      by_cases h : v = SVC_TERMINATE <;> simp [assigns, h, ih]
    | array d data => simp [assigns, ih]

theorem terminates_append (a b : List Msg) :
    terminates (a ++ b) = terminates a ++ terminates b := by
  induction a with
  | nil => rfl
  | cons m a ih =>
    cases m with
    | svc d v =>
      by_cases h : v = SVC_TERMINATE <;> simp [terminates, h, ih]
    | array d data => simp [terminates, ih]

theorem natCast_ne_terminate (i : Nat) : ((i : Int) = SVC_TERMINATE) = False := by
  have h : (0 : Int) ≤ (i : Int) := Int.natCast_nonneg i
  simp only [SVC_TERMINATE, eq_iff_iff, iff_false]
  omega

/-- The three ways one iteration of the coordinator loop can go. -/
theorem master_iter_cases (N M : Nat) (st : Master) (e : Event) :
    (st.sorted_cnt < N ∧
      master_iter N M st e = ({ st with sorted_cnt := st.sorted_cnt + 1 },
        [Msg.svc e.src (st.sorted_cnt : Int), Msg.array e.src (unit M st.values st.sorted_cnt)])) ∨
    (¬ st.sorted_cnt < N ∧
      master_iter N M st e = ({ st with terminated_cnt := st.terminated_cnt + 1 },
        [Msg.svc e.src SVC_TERMINATE])) ∨
    ((master_iter N M st e).2 = [] ∧
      (master_iter N M st e).1.sorted_cnt = st.sorted_cnt ∧
      (master_iter N M st e).1.terminated_cnt = st.terminated_cnt) := by
  by_cases hreq : e.service = SVC_REQUEST
  · by_cases h : st.sorted_cnt < N
    · left
      exact ⟨h, by simp [master_iter, hreq, h, master_send_array, unit]⟩
    · right; left
      exact ⟨h, by simp [master_iter, hreq, h, master_send_terminate]⟩
  · right; right
    simp only [master_iter, hreq, if_false]
    split <;> exact ⟨rfl, rfl, rfl⟩

theorem masterInv_init (N : Nat) (values : List Int) : MasterInv N (master_init values, []) := by
  refine ⟨rfl, Nat.zero_le _, rfl, ?_, ?_⟩
  · intro h; exact absurd h (Nat.lt_irrefl 0)
  · intro pre d post h
    have h6 := congrArg List.length h
    simp at h6
    omega

theorem masterInv_step (N M : Nat) (c : Master × List Msg) (e : Event) (h : MasterInv N c) :
    MasterInv N ((master_iter N M c.1 e).1, c.2 ++ (master_iter N M c.1 e).2) := by
  obtain ⟨h1, h2, h3, h4, h5⟩ := h
  rcases master_iter_cases N M c.1 e with ⟨hlt, heq⟩ | ⟨hge, heq⟩ | ⟨ho, hs, ht⟩
  · rw [heq]
    refine ⟨?_, hlt, ?_, ?_, ?_⟩
    · simp [assigns_append, assigns, natCast_ne_terminate, h1, List.range_succ]
    · simp [terminates_append, terminates, natCast_ne_terminate, h3]
    · intro hpos
      have := h4 hpos
      simp only at hpos
      omega
    · intro pre d post hsplit
      simp only at hsplit
      have hterm : 0 < c.1.terminated_cnt := by
        have hmem : d ∈ terminates c.2 := by
          have h6 := congrArg terminates hsplit
          simp only [terminates_append, terminates, natCast_ne_terminate, if_false,
            List.append_nil, if_true] at h6
          rw [h6]; simp
        rw [← h3]
        exact List.length_pos_of_mem hmem
      have := h4 hterm
      omega
  · rw [heq]
    have hN : c.1.sorted_cnt = N := by omega
    refine ⟨?_, h2, ?_, fun _ => hN, ?_⟩
    · simp [assigns_append, assigns, h1]
    · simp [terminates_append, terminates, h3]
    · intro pre d post hsplit
      simp only at hsplit
      rcases List.append_eq_append_iff.mp hsplit with ⟨a, ha1, ha2⟩ | ⟨a, ha1, ha2⟩
      · cases a with
        | nil =>
          simp only [List.append_nil] at ha1
          rw [ha1, h1, hN]
        | cons m a =>
          simp only [List.cons_append, List.cons.injEq] at ha2
          have h6 := congrArg List.length ha2.2
          simp at h6
          omega
      · cases a with
        | nil =>
          simp only [List.append_nil] at ha1
          rw [← ha1, h1, hN]
        | cons m a =>
          simp only [List.cons_append, List.cons.injEq] at ha2
          obtain ⟨hm, _⟩ := ha2
          rw [← hm] at ha1
          exact h5 pre d a ha1
  · refine ⟨?_, ?_, ?_, ?_, ?_⟩
    · simp only [ho, List.append_nil, hs]; exact h1
    · simp only [hs]; exact h2
    · simp only [ho, List.append_nil, ht]; exact h3
    · simp only [hs, ht]; exact h4
    · simp only [ho, List.append_nil]; exact h5

theorem masterInv_loop (W N M : Nat) (es : List Event) : ∀ c : Master × List Msg,
    MasterInv N c → MasterInv N (master_loop W N M c es) := by
  induction es with
  | nil => intro c h; exact h
  | cons e es ih =>
    intro c h
    unfold master_loop
    split
    · exact ih _ (masterInv_step N M c e h)
    · exact h

theorem master_iter_terminated_le (N M : Nat) (st : Master) (e : Event) :
    (master_iter N M st e).1.terminated_cnt ≤ st.terminated_cnt + 1 := by
  rcases master_iter_cases N M st e with ⟨_, heq⟩ | ⟨_, heq⟩ | ⟨_, _, ht⟩
  · rw [heq]; exact Nat.le_succ _
  · rw [heq]
  · rw [ht]; exact Nat.le_succ _

theorem master_loop_terminated_le (W N M : Nat) (es : List Event) : ∀ c : Master × List Msg,
    c.1.terminated_cnt ≤ W → (master_loop W N M c es).1.terminated_cnt ≤ W := by
  induction es with
  | nil => intro c h; exact h
  | cons e es ih =>
    intro c h
    unfold master_loop
    split
    · rename_i hlt
      exact ih _ (Nat.le_trans (master_iter_terminated_le N M c.1 e) hlt)
    · exact h

/-- The Terminates of one iteration go to the source of the message handled. -/
theorem terminates_iter (N M : Nat) (st : Master) (e : Event) :
    terminates (master_iter N M st e).2 = [] ∨ terminates (master_iter N M st e).2 = [e.src] := by
  rcases master_iter_cases N M st e with ⟨_, heq⟩ | ⟨_, heq⟩ | ⟨ho, _, _⟩
  · left; rw [heq]; simp [terminates, natCast_ne_terminate]
  · right; rw [heq]; simp [terminates]
  · left; rw [ho]; rfl

theorem terminates_nodup_loop (W N M : Nat) (es : List Event) : ∀ c : Master × List Msg,
    (terminates c.2).Nodup → obedient W N M c es = true →
    (terminates (master_loop W N M c es).2).Nodup := by
  induction es with
  | nil => intro c h _; exact h
  | cons e es ih =>
    intro c h hob
    unfold master_loop
    unfold obedient at hob
    split
    · rename_i hlt
      simp only [hlt, if_true, Bool.and_eq_true, decide_eq_true_eq] at hob
      refine ih _ ?_ hob.2
      simp only [terminates_append]
      rcases terminates_iter N M c.1 e with h0 | h1
      · rw [h0, List.append_nil]; exact h
      · rw [h1]
        exact List.nodup_append.mpr ⟨h, List.nodup_singleton _, by
          intro a ha hb
          simp only [List.mem_singleton] at hb
          subst hb
          exact hob.1 ha⟩
    · exact h

theorem terminates_bounded_loop (W N M : Nat) (es : List Event) : ∀ c : Master × List Msg,
    (∀ d ∈ terminates c.2, d < W) → (∀ e ∈ es, e.src < W) →
    ∀ d ∈ terminates (master_loop W N M c es).2, d < W := by
  induction es with
  | nil => intro c h _; exact h
  | cons e es ih =>
    intro c h hsrc
    unfold master_loop
    split
    · refine ih _ ?_ (fun e1 h1 => hsrc e1 (List.mem_cons_of_mem _ h1))
      intro d hd
      simp only [terminates_append, List.mem_append] at hd
      rcases hd with hd | hd
      · exact h d hd
      · rcases terminates_iter N M c.1 e with h0 | h1
        · rw [h0] at hd; simp at hd
        · rw [h1] at hd
          simp only [List.mem_singleton] at hd
          subst hd
          exact hsrc e (List.mem_cons_self _ _)
    · exact h

/-- The inline coordinator loop body of parallel.c does what `parallel_master` does. -/
theorem parallel_c_iter_eq (N M : Nat) (st : Master) (e : Event) :
    parallel_c_iter N M st e = master_iter N M st e := by
  unfold parallel_c_iter master_iter master_receive_array master_send_array
    master_send_terminate
  by_cases h1 : e.service = SVC_REQUEST
  · simp only [h1, if_true]
  · simp only [h1, if_false]
    split <;> rfl

theorem parallel_c_loop_eq (W N M : Nat) (es : List Event) : ∀ c : Master × List Msg,
    parallel_c_loop W N M c es = master_loop W N M c es := by
  induction es with
  | nil => intro c; rfl
  | cons e es ih =>
    intro c
    unfold parallel_c_loop master_loop
    rw [parallel_c_iter_eq, ih]

theorem master_req_assign (N M : Nat) (st : Master) (s : Nat) (data : List Int)
    (h : st.sorted_cnt < N) :
    master_iter N M st ⟨s, SVC_REQUEST, data⟩
      = ({ st with sorted_cnt := st.sorted_cnt + 1 },
          [Msg.svc s (st.sorted_cnt : Int), Msg.array s (unit M st.values st.sorted_cnt)]) := by
  simp [master_iter, h, master_send_array, unit]

theorem master_req_terminate (N M : Nat) (st : Master) (s : Nat) (data : List Int)
    (h : ¬ st.sorted_cnt < N) :
    master_iter N M st ⟨s, SVC_REQUEST, data⟩
      = ({ st with terminated_cnt := st.terminated_cnt + 1 }, [Msg.svc s SVC_TERMINATE]) := by
  simp [master_iter, h, master_send_terminate]

/-- Requests alone bring the coordinator loop to its end: one per unit still to assign
and one per worker still to terminate. -/
theorem requests_end (W N M : Nat) (n : Nat) : ∀ c : Master × List Msg,
    c.1.terminated_cnt ≤ W → (N - c.1.sorted_cnt) + (W - c.1.terminated_cnt) ≤ n →
    (master_loop W N M c (List.replicate n ⟨0, SVC_REQUEST, []⟩)).1.terminated_cnt = W := by
  induction n with
  | zero =>
    intro c hle hn
    show c.1.terminated_cnt = W
    omega
  | succ n ih =>
    intro c hle hn
    rw [List.replicate_succ]
    unfold master_loop
    by_cases hlt : c.1.terminated_cnt < W
    · rw [if_pos hlt]
      by_cases hs : c.1.sorted_cnt < N
      · rw [master_req_assign N M _ _ _ hs]
        exact ih _ hle (by simp only; omega)
      · rw [master_req_terminate N M _ _ _ hs]
        exact ih _ hlt (by simp only; omega)
    · rw [if_neg hlt]
      omega

/-- C1. No double assignment: for every `N`, every `W ≥ 1` and every sequence of control
messages, the indices the coordinator loop has assigned are at every point `0, 1, ...,
sorted_cnt - 1` in that order with `sorted_cnt ≤ N`, and when the loop has ended
(`terminated_cnt` has reached `W`) they are exactly `0, 1, ..., N-1` in that order; the
same holds of the inline coordinator loop of parallel.c.  Some sequence of control
messages does bring the loop to its end. -/
theorem no_double_assignment (W N M : Nat) (values : List Int) (hW : 1 ≤ W) :
    (∃ events : List Event,
      (master_loop W N M (master_init values, []) events).1.terminated_cnt = W) ∧
    ∀ events : List Event,
      assigns (master_loop W N M (master_init values, []) events).2
          = (List.range (master_loop W N M (master_init values, []) events).1.sorted_cnt).map
              Int.ofNat ∧
        (master_loop W N M (master_init values, []) events).1.sorted_cnt ≤ N ∧
        ((master_loop W N M (master_init values, []) events).1.terminated_cnt = W →
          assigns (master_loop W N M (master_init values, []) events).2
              = (List.range N).map Int.ofNat ∧
            (assigns (master_loop W N M (master_init values, []) events).2).Nodup) ∧
        ((parallel_c_loop W N M (master_init values, []) events).1.terminated_cnt = W →
          assigns (parallel_c_loop W N M (master_init values, []) events).2
              = (List.range N).map Int.ofNat) := by
  refine ⟨⟨List.replicate (N + W) ⟨0, SVC_REQUEST, []⟩,
    requests_end W N M (N + W) _ (Nat.zero_le _) (by simp [master_init])⟩, ?_⟩
  intro events
  obtain ⟨h1, h2, _, h4, _⟩ := masterInv_loop W N M events _ (masterInv_init N values)
  have hmain : (master_loop W N M (master_init values, []) events).1.terminated_cnt = W →
      assigns (master_loop W N M (master_init values, []) events).2
        = (List.range N).map Int.ofNat := by
    intro hend
    have hN := h4 (by omega)
    rw [h1, hN]
  refine ⟨h1, h2, ?_, ?_⟩
  · intro hend
    refine ⟨hmain hend, ?_⟩
    rw [hmain hend]
    exact (List.nodup_range N).map (fun a b hab => by simpa using hab)
  · rw [parallel_c_loop_eq]
    exact hmain

/-- C1 on two units and two workers, with the requests and completions interleaved. -/
theorem no_double_assignment_witness :
    assigns (master_loop 2 2 1 (master_init [2, 1], [])
        [⟨0, -1, []⟩, ⟨1, -1, []⟩, ⟨1, 1, [1]⟩, ⟨1, -1, []⟩, ⟨0, 0, [2]⟩, ⟨0, -1, []⟩]).2
      = [0, 1] :=
  (((no_double_assignment 2 2 1 [2, 1] (by decide)).2
    [⟨0, -1, []⟩, ⟨1, -1, []⟩, ⟨1, 1, [1]⟩, ⟨1, -1, []⟩, ⟨0, 0, [2]⟩, ⟨0, -1, []⟩]).2.2.1
    (by decide)).1

/-- C4. Termination accounting: for every `W` (so for every `W ≥ 1`) and every `N`, some
sequence of control messages brings the coordinator loop to its end, and whenever the
loop has ended it has sent exactly `W` Terminate messages, every Terminate in the trace
comes after all of the indices `0 .. N-1` were assigned, and when no control message
comes from a worker that was already sent Terminate the `W` Terminates go to `W` distinct
workers (to each of the ranks `0 .. W-1` once, when all messages come from these
ranks). -/
theorem termination_accounting (W N M : Nat) (values : List Int) :
    (∃ events : List Event,
      (master_loop W N M (master_init values, []) events).1.terminated_cnt = W) ∧
    ∀ events : List Event,
      (master_loop W N M (master_init values, []) events).1.terminated_cnt = W →
      (terminates (master_loop W N M (master_init values, []) events).2).length = W ∧
        (∀ pre d post,
          (master_loop W N M (master_init values, []) events).2
            = pre ++ Msg.svc d (-2) :: post →
          assigns pre = (List.range N).map Int.ofNat) ∧
        (obedient W N M (master_init values, []) events = true →
          (terminates (master_loop W N M (master_init values, []) events).2).Nodup ∧
          ((∀ e ∈ events, e.src < W) →
            (terminates (master_loop W N M (master_init values, []) events).2).Perm
              (List.range W))) := by
  refine ⟨⟨List.replicate (N + W) ⟨0, SVC_REQUEST, []⟩,
    requests_end W N M (N + W) _ (Nat.zero_le _) (by simp [master_init])⟩, ?_⟩
  intro events hend
  obtain ⟨_, _, h3, _, h5⟩ := masterInv_loop W N M events _ (masterInv_init N values)
  refine ⟨by rw [h3, hend], h5, ?_⟩
  intro hob
  have hnd := terminates_nodup_loop W N M events (master_init values, []) List.nodup_nil hob
  refine ⟨hnd, ?_⟩
  intro hsrc
  have hb := terminates_bounded_loop W N M events (master_init values, [])
    (fun d hd => by simp [terminates] at hd) hsrc
  have hsub : terminates (master_loop W N M (master_init values, []) events).2 ⊆ List.range W :=
    fun d hd => List.mem_range.mpr (hb d hd)
  refine (List.subperm_of_subset hnd hsub).perm_of_length_le ?_
  rw [List.length_range, h3, hend]

/-- C4 on two units and two workers: two Terminates, one to each worker. -/
theorem termination_accounting_witness :
    terminates (master_loop 2 2 1 (master_init [2, 1], [])
        [⟨0, -1, []⟩, ⟨1, -1, []⟩, ⟨1, 1, [1]⟩, ⟨1, -1, []⟩, ⟨0, 0, [2]⟩, ⟨0, -1, []⟩]).2
      = [1, 0] ∧
    (terminates (master_loop 2 2 1 (master_init [2, 1], [])
        [⟨0, -1, []⟩, ⟨1, -1, []⟩, ⟨1, 1, [1]⟩, ⟨1, -1, []⟩, ⟨0, 0, [2]⟩, ⟨0, -1, []⟩]).2).Nodup :=
  ⟨by decide,
    (((termination_accounting 2 2 1 [2, 1]).2
      [⟨0, -1, []⟩, ⟨1, -1, []⟩, ⟨1, 1, [1]⟩, ⟨1, -1, []⟩, ⟨0, 0, [2]⟩, ⟨0, -1, []⟩]
      (by decide)).2.2 (by decide)).1⟩

/-! ## Sequential runner -/

theorem populate_upto (SIZE : Nat) (matrix : List Int) (n : Nat) :
    n ≤ matrix.length →
    ((List.range n).foldl (fun m i => m.set i ((SIZE : Int) - (i : Int))) matrix).length
        = matrix.length ∧
      ∀ q, ((List.range n).foldl (fun m i => m.set i ((SIZE : Int) - (i : Int))) matrix)[q]?
        = if q < n then some ((SIZE : Int) - (q : Int)) else matrix[q]? := by
  induction n with
  | zero => intro _; simp
  | succ n ih =>
    intro hn
    obtain ⟨hl, hq⟩ := ih (Nat.le_of_succ_le hn)
    rw [List.range_succ, List.foldl_append]
    simp only [List.foldl_cons, List.foldl_nil, List.length_set]
    refine ⟨hl, ?_⟩
    intro q
    rw [List.getElem?_set, hl]
    by_cases hqn : n = q
    · subst hqn
      have h1 : n < matrix.length := hn
      simp [h1]
    · rw [if_neg hqn, hq q]
      by_cases h2 : q < n
      · have h3 : q < n + 1 := by omega
        simp [h2, h3]
      · have h3 : ¬ q < n + 1 := by omega
        simp [h2, h3]

/-- After `populate_matrix` cell `i` holds `SIZE - i`, whatever the block held before. -/
theorem populate_matrix_eq (SIZE : Nat) (matrix : List Int) (h : matrix.length = SIZE) :
    populate_matrix matrix SIZE
      = (List.range SIZE).map (fun i : Nat => (SIZE : Int) - (i : Int)) := by
  obtain ⟨hl, hq⟩ := populate_upto SIZE matrix SIZE (Nat.le_of_eq h.symm)
  apply List.ext_getElem?
  intro q
  unfold populate_matrix
  rw [hq q, List.getElem?_map]
  by_cases h1 : q < SIZE
  · simp [h1, List.getElem?_range h1]
  · have h2 : matrix.length ≤ q := by omega
    have h3 : (List.range SIZE).length ≤ q := by simp; omega
    simp [h1, List.getElem?_eq_none h2, List.getElem?_eq_none h3]

/-- The cells from offset `i*M` on are unit `i` followed by the cells from `i*M + M` on. -/
theorem drop_eq_unit_append (M : Nat) (values : List Int) (i : Nat) :
    values.drop (i * M) = unit M values i ++ values.drop (i * M + M) := by
  unfold unit
  rw [← List.drop_drop, List.take_append_drop]

/-- Sorting unit `i` in place stores `bubblesort` of the unit over the unit. -/
theorem sort_unit_eq (N M : Nat) (values : List Int) (i : Nat) (hlen : values.length = N * M)
    (hi : i < N) :
    sort_unit M values i
      = values.take (i * M) ++ (bubblesort (unit M values i) M
          ++ values.drop (i * M + (bubblesort (unit M values i) M).length)) := by
  have hu := unit_length N M values i hlen hi
  unfold sort_unit
  rw [bubblesort_length _ _ hu]
  congr 1
  rw [drop_eq_unit_append]
  have h := bubblesort_append (unit M values i) (values.drop (i * M + M))
  rw [hu] at h
  rw [h, ← bubblesort_eq_passes_of_length _ _ hu]

/-- The sort loop of the sequential runner after `n` iterations: units below `n` hold
`bubblesort` of what they held, the others are as they were. -/
theorem sequential_upto (N M : Nat) (values : List Int) (hlen : values.length = N * M)
    (n : Nat) : n ≤ N →
    ((List.range n).foldl (sort_unit M) values).length = N * M ∧
      ∀ k, k < N → unit M ((List.range n).foldl (sort_unit M) values) k
        = if k < n then bubblesort (unit M values k) M else unit M values k := by
  induction n with
  | zero => intro _; exact ⟨hlen, fun k _ => by simp⟩
  | succ n ih =>
    intro hn
    have hnN : n < N := hn
    obtain ⟨hl, hu⟩ := ih (Nat.le_of_succ_le hn)
    have hd : (bubblesort (unit M ((List.range n).foldl (sort_unit M) values) n) M).length = M :=
      bubblesort_length _ _ (unit_length N M _ n hl hnN)
    have h1 : (n + 1) * M ≤ N * M := Nat.mul_le_mul_right M hnN
    rw [Nat.add_mul, Nat.one_mul] at h1
    rw [List.range_succ, List.foldl_append]
    simp only [List.foldl_cons, List.foldl_nil]
    rw [sort_unit_eq N M _ n hl hnN]
    constructor
    · rw [store_length _ _ _ (by rw [hd, hl]; exact h1), hl]
    · intro k hk
      by_cases hkn : k = n
      · subst hkn
        rw [unit_store_same N M _ _ k hl hk hd, hu k hk]
        simp
      · rw [unit_store_other N M _ _ n k hl hnN hd hkn, hu k hk]
        by_cases h2 : k < n
        · have h3 : k < n + 1 := by omega
          simp [h2, h3]
        · have h3 : ¬ k < n + 1 := by omega
          simp [h2, h3]

/-- The sequential runner replaces every unit by `bubblesort` of the unit. -/
theorem sequential_sort_units (N M : Nat) (values : List Int) (hlen : values.length = N * M) :
    (sequential_sort N M values).length = N * M ∧
      ∀ k, k < N → unit M (sequential_sort N M values) k = bubblesort (unit M values k) M := by
  obtain ⟨hl, hu⟩ := sequential_upto N M values hlen N (Nat.le_refl N)
  refine ⟨hl, ?_⟩
  intro k hk
  have := hu k hk
  rw [if_pos hk] at this
  exact this

theorem desc_range_sorted (c : Int) (M : Nat) :
    List.Sorted (· > ·) ((List.range M).map (fun j : Nat => c - (j : Int))) := by
  refine List.pairwise_map.mpr ((List.pairwise_lt_range M).imp ?_)
  intro a b hab
  show c - (a : Int) > c - (b : Int)
  omega

theorem desc_range_reverse (c : Int) (M : Nat) :
    ((List.range M).map (fun j : Nat => c - (j : Int))).reverse
      = (List.range M).map (fun j : Nat => c - (M : Int) + 1 + (j : Int)) := by
  apply List.ext_getElem?
  intro q
  by_cases hq : q < M
  · rw [List.getElem?_reverse (by simpa using hq)]
    simp only [List.length_map, List.length_range, List.getElem?_map]
    rw [List.getElem?_range (by omega), List.getElem?_range hq]
    simp only [Option.map_some']
    congr 1
    omega
  · rw [List.getElem?_eq_none (by simp; omega), List.getElem?_eq_none (by simp; omega)]

/-- Unit `i` of the populated Job Set counts down from `N*M - i*M`. -/
theorem unit_populated (N M : Nat) (i : Nat) (hi : i < N) :
    unit M ((List.range (N * M)).map (fun q : Nat => ((N * M : Nat) : Int) - (q : Int))) i
      = (List.range M).map (fun j : Nat => (((N * M : Nat) : Int) - ((i * M : Nat) : Int)) - (j : Int)) := by
  have h1 : (i + 1) * M ≤ N * M := Nat.mul_le_mul_right M hi
  rw [Nat.add_mul, Nat.one_mul] at h1
  apply List.ext_getElem?
  intro j
  rw [getElem?_unit, List.getElem?_map, List.getElem?_map]
  by_cases hj : j < M
  · rw [if_pos hj, List.getElem?_range (by omega), List.getElem?_range hj]
    simp only [Option.map_some']
    congr 1
    push_cast
    omega
  · rw [if_neg hj, List.getElem?_eq_none (by simp; omega)]
    rfl

/-- C9. Completeness of the sequential run: for all `N` and `M`, once `sequential(N, M)`
has populated the Job Set and run the sort loop, it returns 0 and every unit `i` in
`[0, N)` holds `(N-i-1)*M+1, (N-i-1)*M+2, ..., (N-i)*M`, which is strictly ascending and a
permutation of what `populate_matrix` put there; and sorting one unit changes no other
unit. -/
theorem sequential_complete (N M : Nat) (block : List Int) (hb : block.length = N * M) :
    (sequential N M (some block)).1 = 0 ∧
    (∃ final, (sequential N M (some block)).2 = some final ∧ final.length = N * M ∧
      ∀ i, i < N →
        unit M final i = (List.range M).map
            (fun j : Nat => ((N : Int) - (i : Int) - 1) * (M : Int) + 1 + (j : Int)) ∧
          List.Sorted (· < ·) (unit M final i) ∧
          (unit M final i).Perm (unit M (populate_matrix block (N * M)) i)) ∧
    (∀ (values : List Int) (i k : Nat), values.length = N * M → i < N → k ≠ i →
      unit M (sort_unit M values i) k = unit M values k) := by
  refine ⟨rfl, ⟨sequential_sort N M (populate_matrix block (N * M)), rfl, ?_, ?_⟩, ?_⟩
  · rw [populate_matrix_eq _ _ hb]
    exact (sequential_sort_units N M _ (by simp)).1
  · intro i hi
    rw [populate_matrix_eq _ _ hb]
    have hu := (sequential_sort_units N M
      ((List.range (N * M)).map (fun q : Nat => ((N * M : Nat) : Int) - (q : Int))) (by simp)).2 i hi
    rw [hu, unit_populated N M i hi]
    have hrev := bubblesort_desc_reverse _ M (by simp)
      (desc_range_sorted (((N * M : Nat) : Int) - ((i * M : Nat) : Int)) M)
    refine ⟨?_, ?_, sort_permutes _ M (by simp)⟩
    · rw [hrev, desc_range_reverse]
      apply List.map_congr_left
      intro j _
      push_cast
      ring
    · rw [hrev]
      exact List.pairwise_reverse.mpr (desc_range_sorted _ M)
  · intro values i k hlen hi hk
    rw [sort_unit_eq N M values i hlen hi]
    exact unit_store_other N M values _ i k hlen hi
      (bubblesort_length _ _ (unit_length N M values i hlen hi)) hk

/-- C9 on three units of four cells, whatever the block held. -/
theorem sequential_complete_witness :
    (sequential 3 4 (some (List.replicate 12 7))).2
      = some [9, 10, 11, 12, 5, 6, 7, 8, 1, 2, 3, 4] ∧
    (sequential 3 4 (some (List.replicate 12 7))).1 = 0 :=
  ⟨by decide, (sequential_complete 3 4 (List.replicate 12 7) (by decide)).1⟩

/-! ## Coordinator and workers together -/

theorem countP_set_same (p : Slave → Bool) (l : List Slave) : ∀ (r : Nat) (x y : Slave),
    l[r]? = some y → p x = p y → (l.set r x).countP p = l.countP p := by
  induction l with
  | nil => intro r x y h _; simp at h
  | cons a l ih =>
    intro r x y h hp
    cases r with
    | zero =>
      simp only [List.getElem?_cons_zero, Option.some.injEq] at h
      subst h
      simp [List.countP_cons, hp]
    | succ r =>
      simp only [List.getElem?_cons_succ] at h
      simp [List.countP_cons, ih r x y h hp]

theorem countP_set_true (p : Slave → Bool) (l : List Slave) : ∀ (r : Nat) (x y : Slave),
    l[r]? = some y → p y = false → p x = true → (l.set r x).countP p = l.countP p + 1 := by
  induction l with
  | nil => intro r x y h _ _; simp at h
  | cons a l ih =>
    intro r x y h hy hx
    cases r with
    | zero =>
      simp only [List.getElem?_cons_zero, Option.some.injEq] at h
      subst h
      simp [List.countP_cons, hx, hy]
    | succ r =>
      simp only [List.getElem?_cons_succ] at h
      simp only [List.set_cons_succ, List.countP_cons, ih r x y h hy hx]
      omega

/-- Two Job Sets of `N` units of `M` cells with the same units are the same. -/
theorem ext_units (N M : Nat) (l1 l2 : List Int) (h1 : l1.length = N * M)
    (h2 : l2.length = N * M) (hu : ∀ k, k < N → unit M l1 k = unit M l2 k) : l1 = l2 := by
  apply List.ext_getElem?
  intro q
  by_cases hq : q < N * M
  · have hM : 0 < M := by
      rcases Nat.eq_zero_or_pos M with h0 | h0
      · subst h0; simp at hq
      · exact h0
    have hk : q / M < N := by
      rw [Nat.div_lt_iff_lt_mul hM]; exact hq
    have hj : q % M < M := Nat.mod_lt _ hM
    have hqq : q / M * M + q % M = q := by
      rw [Nat.mul_comm]; exact Nat.div_add_mod q M
    have e1 := getElem?_unit M l1 (q / M) (q % M)
    have e2 := getElem?_unit M l2 (q / M) (q % M)
    rw [if_pos hj, hqq] at e1 e2
    rw [← e1, ← e2, hu _ hk]
  · rw [List.getElem?_eq_none (by omega), List.getElem?_eq_none (by omega)]

theorem system_step_none (N M : Nat) (sys : System) (r : Nat) (h : sys.slaves[r]? = none) :
    system_step N M sys r = sys := by
  simp [system_step, h]

theorem system_step_stopped (N M : Nat) (sys : System) (r : Nat) (sl : Slave)
    (h : sys.slaves[r]? = some sl) (ho : sl.outbox = []) : system_step N M sys r = sys := by
  simp [system_step, h, ho]

theorem system_step_request (N M : Nat) (sys : System) (r : Nat) (sl : Slave) (d : Nat)
    (h : sys.slaves[r]? = some sl) (ho : sl.outbox = [Msg.svc d SVC_REQUEST]) :
    system_step N M sys r
      = { master := (master_iter N M sys.master ⟨r, SVC_REQUEST, []⟩).1,
          sent := sys.sent ++ (master_iter N M sys.master ⟨r, SVC_REQUEST, []⟩).2,
          slaves := sys.slaves.set r (slave_resume M sys.slaves.length { sl with outbox := [] }
            (master_iter N M sys.master ⟨r, SVC_REQUEST, []⟩).2) } := by
  simp [system_step, h, ho]

theorem system_step_completed (N M : Nat) (sys : System) (r : Nat) (sl : Slave) (d k : Nat)
    (data : List Int) (h : sys.slaves[r]? = some sl)
    (ho : sl.outbox = [Msg.svc d (k : Int), Msg.array d data, Msg.svc d SVC_REQUEST]) :
    system_step N M sys r
      = { master := (master_iter N M sys.master ⟨r, (k : Int), data⟩).1,
          sent := sys.sent ++ (master_iter N M sys.master ⟨r, (k : Int), data⟩).2,
          slaves := sys.slaves.set r (slave_resume M sys.slaves.length
            { sl with outbox := [Msg.svc d SVC_REQUEST] }
            (master_iter N M sys.master ⟨r, (k : Int), data⟩).2) } := by
  simp [system_step, h, ho, natCast_ne_request]

theorem master_iter_valid (N M : Nat) (st : Master) (s i : Nat) (p : List Int)
    (hlen : st.values.length = N * M) (hi : i < N) (hp : p.length = M) :
    master_iter N M st ⟨s, (i : Int), p⟩
      = ({ st with values := st.values.take (i * M) ++ (p ++ st.values.drop (i * M + p.length)) },
          []) := by
  simp only [master_iter, natCast_ne_request, if_false,
    master_receive_array_valid N M st.values p i hlen hi hp]

theorem slave_resume_assign (M W : Nat) (sl : Slave) (d d2 : Nat) (k : Nat) (data : List Int)
    (hv : sl.values.length = M) (hd : data.length = M) :
    slave_resume M W sl [Msg.svc d (k : Int), Msg.array d2 data]
      = { values := bubblesort data M,
          outbox := [Msg.svc W (k : Int), Msg.array W (bubblesort data M), Msg.svc W SVC_REQUEST],
          terminate := false } := by
  simp [slave_resume, slave_switch, natCast_ne_terminate,
    slave_work_exact M W sl.values data (k : Int) hv hd]

theorem slave_resume_terminate (M W : Nat) (sl : Slave) (d : Nat) :
    slave_resume M W sl [Msg.svc d SVC_TERMINATE]
      = { values := sl.values, outbox := [], terminate := true } := by
  simp [slave_resume, slave_switch]

theorem slaveOk_mono (W M : Nat) (orig : List Int) (c c1 : Nat) (sl : Slave) (hc : c ≤ c1)
    (h : SlaveOk W M orig c sl) : SlaveOk W M orig c1 sl := by
  obtain ⟨hv, h | ⟨k, hk, hh, ht⟩ | h⟩ := h
  · exact ⟨hv, Or.inl h⟩
  · exact ⟨hv, Or.inr (Or.inl ⟨k, Nat.lt_of_lt_of_le hk hc, hh, ht⟩)⟩
  · exact ⟨hv, Or.inr (Or.inr h)⟩

theorem getElem?_set_cases (l : List Slave) (r i : Nat) (x y : Slave)
    (h : (l.set r x)[i]? = some y) : (i = r ∧ y = x) ∨ (i ≠ r ∧ l[i]? = some y) := by
  rw [List.getElem?_set] at h
  by_cases hri : r = i
  · left
    rw [if_pos hri] at h
    split at h
    · exact ⟨hri.symm, (Option.some.inj h).symm⟩
    · exact absurd h (by simp)
  · right
    rw [if_neg hri] at h
    exact ⟨fun e => hri e.symm, h⟩

/-- A worker whose request is pending holds no unit. -/
theorem not_holds_of_request (W M : Nat) (orig : List Int) (sl : Slave) (k : Nat)
    (ho : sl.outbox = [Msg.svc W SVC_REQUEST]) : ¬ Holds W M orig sl k := by
  intro hh
  unfold Holds at hh
  rw [ho] at hh
  have := congrArg List.length hh
  simp at this

/-- A holder found in the old list that is not the worker served is in the new list. -/
theorem holder_kept (W M : Nat) (orig : List Int) (l : List Slave) (r : Nat) (sl x : Slave)
    (k : Nat) (hr : l[r]? = some sl) (hn : ¬ Holds W M orig sl k)
    (h : ∃ (i : Nat) (y : Slave), l[i]? = some y ∧ Holds W M orig y k) :
    ∃ (i : Nat) (y : Slave), (l.set r x)[i]? = some y ∧ Holds W M orig y k := by
  obtain ⟨i, y, hi, hy⟩ := h
  have hne : r ≠ i := by
    intro e
    subst e
    rw [hr] at hi
    exact hn ((Option.some.inj hi) ▸ hy)
  exact ⟨i, y, by rw [List.getElem?_set_ne hne]; exact hi, hy⟩

theorem sysInv_assign (N M : Nat) (orig : List Int) (sys : System) (r : Nat) (sl : Slave)
    (hinv : SysInv N M orig sys) (hr : sys.slaves[r]? = some sl)
    (ho : sl.outbox = [Msg.svc sys.slaves.length SVC_REQUEST]) (ht : sl.terminate = false)
    (hlt : sys.master.sorted_cnt < N) (sent1 : List Msg) :
    SysInv N M orig
      { master := { sys.master with sorted_cnt := sys.master.sorted_cnt + 1 },
        sent := sent1,
        slaves := sys.slaves.set r
          { values := bubblesort (unit M orig sys.master.sorted_cnt) M,
            outbox := [Msg.svc sys.slaves.length (sys.master.sorted_cnt : Int),
              Msg.array sys.slaves.length (bubblesort (unit M orig sys.master.sorted_cnt) M),
              Msg.svc sys.slaves.length SVC_REQUEST],
            terminate := false } } := by
  obtain ⟨h1, h2, h3, h4, h5, h6, h7⟩ := hinv
  have hrl : r < sys.slaves.length := by
    rcases Nat.lt_or_ge r sys.slaves.length with h | h
    · exact h
    · rw [List.getElem?_eq_none h] at hr; exact absurd hr (by simp)
  have hlenD : (bubblesort (unit M orig sys.master.sorted_cnt) M).length = M := by
    apply bubblesort_length
    rw [← h6 _ hlt (Nat.le_refl _)]
    exact unit_length N M _ _ h1 hlt
  refine ⟨h1, hlt, ?_, ?_, ?_, ?_, ?_⟩
  · intro i y hy
    simp only [List.length_set] at hy ⊢
    rcases getElem?_set_cases _ _ _ _ _ hy with ⟨_, hyx⟩ | ⟨_, hold⟩
    · subst hyx
      exact ⟨hlenD, Or.inr (Or.inl ⟨sys.master.sorted_cnt, Nat.lt_succ_self _, rfl, rfl⟩)⟩
    · exact slaveOk_mono _ _ _ _ _ _ (Nat.le_succ _) (h3 i y hold)
  · show sys.master.terminated_cnt = _
    rw [countP_set_same _ _ r _ sl hr (by simp [ht])]
    exact h4
  · intro hpos
    have := h5 hpos
    omega
  · intro k hk hle
    exact h6 k hk (by simp only at hle; omega)
  · intro k hk
    simp only [List.length_set]
    simp only at hk
    by_cases hkc : k = sys.master.sorted_cnt
    · right
      subst hkc
      exact ⟨r, _, by rw [List.getElem?_set_self hrl], by unfold Holds; rfl⟩
    · rcases h7 k (by omega) with hdone | hheld
      · exact Or.inl hdone
      · exact Or.inr (holder_kept _ _ _ _ r sl _ k hr (not_holds_of_request _ _ _ _ _ ho) hheld)

theorem sysInv_terminate (N M : Nat) (orig : List Int) (sys : System) (r : Nat) (sl : Slave)
    (hinv : SysInv N M orig sys) (hr : sys.slaves[r]? = some sl)
    (ho : sl.outbox = [Msg.svc sys.slaves.length SVC_REQUEST]) (ht : sl.terminate = false)
    (hge : ¬ sys.master.sorted_cnt < N) (sent1 : List Msg) :
    SysInv N M orig
      { master := { sys.master with terminated_cnt := sys.master.terminated_cnt + 1 },
        sent := sent1,
        slaves := sys.slaves.set r { values := sl.values, outbox := [], terminate := true } } := by
  obtain ⟨h1, h2, h3, h4, h5, h6, h7⟩ := hinv
  refine ⟨h1, h2, ?_, ?_, ?_, h6, ?_⟩
  · intro i y hy
    simp only [List.length_set] at hy ⊢
    rcases getElem?_set_cases _ _ _ _ _ hy with ⟨_, hyx⟩ | ⟨_, hold⟩
    · subst hyx
      exact ⟨(h3 r sl hr).1, Or.inr (Or.inr ⟨rfl, rfl⟩)⟩
    · exact h3 i y hold
  · show sys.master.terminated_cnt + 1 = _
    rw [countP_set_true _ _ r _ sl hr (by simp [ht]) (by simp), ← h4]
  · intro _
    show sys.master.sorted_cnt = N
    omega
  · intro k hk
    simp only [List.length_set]
    rcases h7 k hk with hdone | hheld
    · exact Or.inl hdone
    · exact Or.inr (holder_kept _ _ _ _ r sl _ k hr (not_holds_of_request _ _ _ _ _ ho) hheld)

theorem sysInv_store (N M : Nat) (orig : List Int) (sys : System) (r : Nat) (sl : Slave)
    (k : Nat) (horig : orig.length = N * M) (hinv : SysInv N M orig sys)
    (hr : sys.slaves[r]? = some sl) (hk : k < sys.master.sorted_cnt) (hh : Holds sys.slaves.length M orig sl k)
    (ht : sl.terminate = false) (sent1 : List Msg) :
    SysInv N M orig
      { master := { sys.master with
          values := sys.master.values.take (k * M) ++ (bubblesort (unit M orig k) M
            ++ sys.master.values.drop (k * M + (bubblesort (unit M orig k) M).length)) },
        sent := sent1,
        slaves := sys.slaves.set r
          { sl with outbox := [Msg.svc sys.slaves.length SVC_REQUEST] } } := by
  obtain ⟨h1, h2, h3, h4, h5, h6, h7⟩ := hinv
  have hkN : k < N := Nat.lt_of_lt_of_le hk h2
  have hrl : r < sys.slaves.length := by
    rcases Nat.lt_or_ge r sys.slaves.length with h | h
    · exact h
    · rw [List.getElem?_eq_none h] at hr; exact absurd hr (by simp)
  have hlenD : (bubblesort (unit M orig k) M).length = M :=
    bubblesort_length _ _ (unit_length N M orig k horig hkN)
  have h11 : (k + 1) * M ≤ N * M := Nat.mul_le_mul_right M hkN
  rw [Nat.add_mul, Nat.one_mul] at h11
  refine ⟨?_, h2, ?_, ?_, h5, ?_, ?_⟩
  · show (sys.master.values.take (k * M) ++ (bubblesort (unit M orig k) M
        ++ sys.master.values.drop (k * M + (bubblesort (unit M orig k) M).length))).length = N * M
    rw [store_length _ _ _ (by rw [hlenD, h1]; exact h11), h1]
  · intro i y hy
    simp only [List.length_set] at hy ⊢
    rcases getElem?_set_cases _ _ _ _ _ hy with ⟨_, hyx⟩ | ⟨_, hold⟩
    · subst hyx
      exact ⟨(h3 r sl hr).1, Or.inl ⟨rfl, ht⟩⟩
    · exact h3 i y hold
  · show sys.master.terminated_cnt = List.countP (fun sl => sl.terminate) (sys.slaves.set r _)
    rw [countP_set_same (fun sl => sl.terminate) _ r
      { sl with outbox := [Msg.svc sys.slaves.length SVC_REQUEST] } sl hr rfl]
    exact h4
  · intro j hj hle
    show unit M (sys.master.values.take (k * M) ++ (bubblesort (unit M orig k) M
        ++ sys.master.values.drop (k * M + (bubblesort (unit M orig k) M).length))) j = _
    rw [unit_store_other N M _ _ k j h1 hkN hlenD (by simp only at hle; omega)]
    exact h6 j hj hle
  · intro j hj
    simp only [List.length_set]
    show unit M (sys.master.values.take (k * M) ++ (bubblesort (unit M orig k) M
        ++ sys.master.values.drop (k * M + (bubblesort (unit M orig k) M).length))) j = _ ∨ _
    by_cases hjk : j = k
    · left
      subst hjk
      exact unit_store_same N M _ _ j h1 hkN hlenD
    · rw [unit_store_other N M _ _ k j h1 hkN hlenD hjk]
      rcases h7 j hj with hdone | hheld
      · exact Or.inl hdone
      · refine Or.inr (holder_kept _ _ _ _ r sl _ j hr ?_ hheld)
        intro hj2
        unfold Holds at hh hj2
        rw [hh] at hj2
        simp only [List.cons.injEq, Msg.svc.injEq, true_and, Nat.cast_inj] at hj2
        exact hjk hj2.1.symm

theorem sysInv_step (N M : Nat) (orig : List Int) (sys : System) (r : Nat)
    (horig : orig.length = N * M) (hinv : SysInv N M orig sys) :
    SysInv N M orig (system_step N M sys r) := by
  cases h : sys.slaves[r]? with
  | none => rw [system_step_none N M sys r h]; exact hinv
  | some sl =>
    have hok := hinv.2.2.1 r sl h
    obtain ⟨hv, ⟨ho, ht⟩ | ⟨k, hk, hh, ht⟩ | ⟨ho, _⟩⟩ := hok
    · rw [system_step_request N M sys r sl _ h ho]
      by_cases hlt : sys.master.sorted_cnt < N
      · have hu : unit M sys.master.values sys.master.sorted_cnt
            = unit M orig sys.master.sorted_cnt := hinv.2.2.2.2.2.1 _ hlt (Nat.le_refl _)
        have hd : (unit M orig sys.master.sorted_cnt).length = M :=
          unit_length N M orig _ horig hlt
        rw [master_req_assign N M _ _ _ hlt, hu]
        simp only
        rw [slave_resume_assign M _ { sl with outbox := [] } r r _ _ hv hd]
        exact sysInv_assign N M orig sys r sl hinv h ho ht hlt _
      · rw [master_req_terminate N M _ _ _ hlt]
        simp only
        rw [slave_resume_terminate]
        exact sysInv_terminate N M orig sys r sl hinv h ho ht hlt _
    · have hkN : k < N := Nat.lt_of_lt_of_le hk hinv.2.1
      have hlenD : (bubblesort (unit M orig k) M).length = M :=
        bubblesort_length _ _ (unit_length N M orig k horig hkN)
      rw [system_step_completed N M sys r sl _ k _ h hh,
        master_iter_valid N M _ r k _ hinv.1 hkN hlenD]
      exact sysInv_store N M orig sys r sl k horig hinv h hk hh ht _
    · rw [system_step_stopped N M sys r sl h ho]; exact hinv

theorem sysInv_run (N M : Nat) (orig : List Int) (horig : orig.length = N * M)
    (schedule : List Nat) : ∀ sys : System, SysInv N M orig sys →
    SysInv N M orig (system_run N M sys schedule) := by
  induction schedule with
  | nil => intro sys h; exact h
  | cons r rs ih =>
    intro sys h
    unfold system_run
    split
    · exact ih _ (sysInv_step N M orig sys r horig h)
    · exact h

theorem system_step_length (N M : Nat) (sys : System) (r : Nat) :
    (system_step N M sys r).slaves.length = sys.slaves.length := by
  unfold system_step
  split
  · rfl
  · split
    · simp
    · rfl

theorem system_run_length (N M : Nat) (schedule : List Nat) : ∀ sys : System,
    (system_run N M sys schedule).slaves.length = sys.slaves.length := by
  induction schedule with
  | nil => intro sys; rfl
  | cons r rs ih =>
    intro sys
    unfold system_run
    split
    · rw [ih, system_step_length]
    · rfl

theorem sysInv_init (N M : Nat) (values : List Int) (bufs : List (List Int))
    (hlen : values.length = N * M) (hbufs : ∀ b ∈ bufs, b.length = M) :
    SysInv N M values (system_init values bufs) := by
  refine ⟨hlen, Nat.zero_le _, ?_, ?_, ?_, ?_, ?_⟩
  · intro i sl hsl
    simp only [system_init, List.getElem?_map, List.length_map] at hsl ⊢
    cases hb : bufs[i]? with
    | none => rw [hb] at hsl; simp at hsl
    | some b =>
      rw [hb] at hsl
      simp only [Option.map_some', Option.some.injEq] at hsl
      subst hsl
      exact ⟨hbufs b (List.getElem?_mem hb), Or.inl ⟨rfl, rfl⟩⟩
  · show 0 = _
    symm
    rw [List.countP_eq_zero]
    intro sl hsl
    simp only [system_init, List.mem_map] at hsl
    obtain ⟨b, _, hb⟩ := hsl
    subst hb
    simp [slave_init]
  · intro h; exact absurd h (Nat.lt_irrefl 0)
  · intro k _ _; rfl
  · intro k hk; exact absurd hk (Nat.not_lt_zero k)

/-- When the loop has ended with at least one worker, every unit of the Job Set holds
`bubblesort` of the original unit. -/
theorem sysInv_final (N M : Nat) (orig : List Int) (sys : System) (hinv : SysInv N M orig sys)
    (hW : 1 ≤ sys.slaves.length) (hend : sys.master.terminated_cnt = sys.slaves.length) :
    ∀ k, k < N → unit M sys.master.values k = bubblesort (unit M orig k) M := by
  obtain ⟨_, _, h3, h4, h5, _, h7⟩ := hinv
  have hN : sys.master.sorted_cnt = N := h5 (by omega)
  have hall : ∀ sl ∈ sys.slaves, sl.terminate = true := by
    have : sys.slaves.countP (fun sl => sl.terminate) = sys.slaves.length := by rw [← h4, hend]
    exact List.countP_eq_length.mp this
  intro k hk
  rcases h7 k (by omega) with hdone | ⟨i, sl, hsl, hh⟩
  · exact hdone
  · exfalso
    have hterm := hall sl (List.getElem?_mem hsl)
    obtain ⟨_, ⟨_, ht⟩ | ⟨_, _, _, ht⟩ | ⟨ho, _⟩⟩ := h3 i sl hsl
    · rw [ht] at hterm; exact absurd hterm (by simp)
    · rw [ht] at hterm; exact absurd hterm (by simp)
    · unfold Holds at hh
      rw [ho] at hh
      exact absurd hh (by simp)

theorem countP_set_false (p : Slave → Bool) (l : List Slave) : ∀ (r : Nat) (x y : Slave),
    l[r]? = some y → p y = true → p x = false → (l.set r x).countP p + 1 = l.countP p := by
  induction l with
  | nil => intro r x y h _ _; simp at h
  | cons a l ih =>
    intro r x y h hy hx
    cases r with
    | zero =>
      simp only [List.getElem?_cons_zero, Option.some.injEq] at h
      subst h
      simp [List.countP_cons, hx, hy]
    | succ r =>
      simp only [List.getElem?_cons_succ] at h
      simp only [List.set_cons_succ, List.countP_cons, ← ih r x y h hy hx]
      omega

theorem exists_of_countP_lt (p : Slave → Bool) (l : List Slave) (h : l.countP p < l.length) :
    ∃ (i : Nat) (sl : Slave), l[i]? = some sl ∧ p sl = false := by
  induction l with
  | nil => simp at h
  | cons a l ih =>
    cases hp : p a with
    | false => exact ⟨0, a, by simp, hp⟩
    | true =>
      simp only [List.countP_cons, hp, if_true, List.length_cons] at h
      obtain ⟨i, sl, hi, hs⟩ := ih (by omega)
      exact ⟨i + 1, sl, by simpa using hi, hs⟩

/-- The iteration that serves a worker whose request is pending while units remain. -/
theorem system_step_assign_eq (N M : Nat) (orig : List Int) (sys : System) (r : Nat)
    (sl : Slave) (horig : orig.length = N * M) (hinv : SysInv N M orig sys)
    (h : sys.slaves[r]? = some sl) (ho : sl.outbox = [Msg.svc sys.slaves.length SVC_REQUEST])
    (hlt : sys.master.sorted_cnt < N) :
    system_step N M sys r
      = { master := { sys.master with sorted_cnt := sys.master.sorted_cnt + 1 },
          sent := sys.sent ++ [Msg.svc r (sys.master.sorted_cnt : Int),
            Msg.array r (unit M orig sys.master.sorted_cnt)],
          slaves := sys.slaves.set r
            { values := bubblesort (unit M orig sys.master.sorted_cnt) M,
              outbox := [Msg.svc sys.slaves.length (sys.master.sorted_cnt : Int),
                Msg.array sys.slaves.length (bubblesort (unit M orig sys.master.sorted_cnt) M),
                Msg.svc sys.slaves.length SVC_REQUEST],
              terminate := false } } := by
  have hv := (hinv.2.2.1 r sl h).1
  have hu : unit M sys.master.values sys.master.sorted_cnt
      = unit M orig sys.master.sorted_cnt := hinv.2.2.2.2.2.1 _ hlt (Nat.le_refl _)
  have hd : (unit M orig sys.master.sorted_cnt).length = M := unit_length N M orig _ horig hlt
  rw [system_step_request N M sys r sl _ h ho, master_req_assign N M _ _ _ hlt, hu]
  simp only
  rw [slave_resume_assign M _ { sl with outbox := [] } r r _ _ hv hd]

/-- The iteration that serves a worker whose request is pending when no unit remains. -/
theorem system_step_terminate_eq (N M : Nat) (sys : System) (r : Nat) (sl : Slave)
    (h : sys.slaves[r]? = some sl) (ho : sl.outbox = [Msg.svc sys.slaves.length SVC_REQUEST])
    (hge : ¬ sys.master.sorted_cnt < N) :
    system_step N M sys r
      = { master := { sys.master with terminated_cnt := sys.master.terminated_cnt + 1 },
          sent := sys.sent ++ [Msg.svc r SVC_TERMINATE],
          slaves := sys.slaves.set r
            { values := sl.values, outbox := [], terminate := true } } := by
  rw [system_step_request N M sys r sl _ h ho, master_req_terminate N M _ _ _ hge]
  simp only
  rw [slave_resume_terminate]

/-- The iteration that serves a worker holding unit `k`. -/
theorem system_step_store_eq (N M : Nat) (orig : List Int) (sys : System) (r : Nat)
    (sl : Slave) (k : Nat) (horig : orig.length = N * M) (hinv : SysInv N M orig sys)
    (h : sys.slaves[r]? = some sl) (hk : k < sys.master.sorted_cnt)
    (hh : Holds sys.slaves.length M orig sl k) :
    system_step N M sys r
      = { master := { sys.master with
            values := sys.master.values.take (k * M) ++ (bubblesort (unit M orig k) M
              ++ sys.master.values.drop (k * M + (bubblesort (unit M orig k) M).length)) },
          sent := sys.sent ++ [],
          slaves := sys.slaves.set r
            { sl with outbox := [Msg.svc sys.slaves.length SVC_REQUEST] } } := by
  have hkN : k < N := Nat.lt_of_lt_of_le hk hinv.2.1
  have hlenD : (bubblesort (unit M orig k) M).length = M :=
    bubblesort_length _ _ (unit_length N M orig k horig hkN)
  rw [system_step_completed N M sys r sl _ k _ h hh,
    master_iter_valid N M _ r k _ hinv.1 hkN hlenD]
  rfl

/-- Serving a worker that has not left its loop brings the end of the run closer. -/
theorem remaining_step (N M : Nat) (orig : List Int) (sys : System) (r : Nat) (sl : Slave)
    (horig : orig.length = N * M) (hinv : SysInv N M orig sys)
    (h : sys.slaves[r]? = some sl) (ht : sl.terminate = false)
    (hW : sys.master.terminated_cnt < sys.slaves.length) :
    remaining N (system_step N M sys r) < remaining N sys := by
  obtain ⟨hv, ⟨ho, _⟩ | ⟨k, hk, hh, _⟩ | ⟨_, ht2⟩⟩ := hinv.2.2.1 r sl h
  · by_cases hlt : sys.master.sorted_cnt < N
    · rw [system_step_assign_eq N M orig sys r sl horig hinv h ho hlt]
      unfold remaining
      simp only [List.length_set]
      rw [countP_set_true (fun sl => decide (sl.outbox.length = 3)) _ r _ sl h
        (by simp [ho]) (by simp)]
      omega
    · rw [system_step_terminate_eq N M sys r sl h ho hlt]
      unfold remaining
      simp only [List.length_set]
      rw [countP_set_same (fun sl => decide (sl.outbox.length = 3)) _ r _ sl h
        (by simp [ho])]
      omega
  · rw [system_step_store_eq N M orig sys r sl k horig hinv h hk hh]
    unfold remaining
    simp only [List.length_set]
    have hc := countP_set_false (fun sl => decide (sl.outbox.length = 3)) sys.slaves r
      { sl with outbox := [Msg.svc sys.slaves.length SVC_REQUEST] } sl h
      (by unfold Holds at hh; simp [hh]) (by simp)
    omega
  · rw [ht] at ht2; exact absurd ht2 (by simp)

/-- From every state the run can reach, some order of service brings the coordinator loop
to its end. -/
theorem exists_schedule (N M : Nat) (orig : List Int) (horig : orig.length = N * M)
    (n : Nat) : ∀ sys : System, SysInv N M orig sys → remaining N sys ≤ n →
    ∃ schedule : List Nat,
      (system_run N M sys schedule).master.terminated_cnt = sys.slaves.length := by
  induction n with
  | zero =>
    intro sys hinv hn
    rcases Nat.lt_or_ge sys.master.terminated_cnt sys.slaves.length with hlt | hge
    · unfold remaining at hn; omega
    · have hle : sys.master.terminated_cnt ≤ sys.slaves.length := by
        rw [hinv.2.2.2.1]; exact List.countP_le_length _
      exact ⟨[], Nat.le_antisymm hle hge⟩
  | succ n ih =>
    intro sys hinv hn
    have hle : sys.master.terminated_cnt ≤ sys.slaves.length := by
      rw [hinv.2.2.2.1]; exact List.countP_le_length _
    rcases Nat.lt_or_ge sys.master.terminated_cnt sys.slaves.length with hlt | hge
    · obtain ⟨r, sl, hr, ht⟩ := exists_of_countP_lt (fun sl => sl.terminate) sys.slaves
        (by rw [← hinv.2.2.2.1]; exact hlt)
      have hdec := remaining_step N M orig sys r sl horig hinv hr ht hlt
      obtain ⟨sch, hsch⟩ := ih (system_step N M sys r) (sysInv_step N M orig sys r horig hinv)
        (by omega)
      refine ⟨r :: sch, ?_⟩
      unfold system_run
      rw [if_pos hlt, hsch, system_step_length]
    · exact ⟨[], Nat.le_antisymm hle hge⟩

/-- C8. Equivalence: for every Job Set of `N` units of `M` cells and every `W ≥ 1` workers
(with buffers of `M` cells holding anything) that run the worker loop, some order of
service brings the coordinator loop to its end, and for every order in which the
coordinator's receive matches the workers, when the coordinator loop has ended the Job
Set it holds is, cell for cell, the one the sort loop of the Sequential Runner makes of
the same input: unit `i` replaced by `bubblesort` of unit `i`, for every `i` in
`[0, N)`. -/
theorem equivalence (N M : Nat) (values : List Int) (bufs : List (List Int))
    (hlen : values.length = N * M) (hW : 1 ≤ bufs.length) (hbufs : ∀ b ∈ bufs, b.length = M) :
    (∃ schedule : List Nat,
      (system_run N M (system_init values bufs) schedule).master.terminated_cnt
        = bufs.length) ∧
    ∀ schedule : List Nat,
      (system_run N M (system_init values bufs) schedule).master.terminated_cnt = bufs.length →
      (system_run N M (system_init values bufs) schedule).master.values
          = sequential_sort N M values ∧
        ∀ i, i < N →
          unit M (system_run N M (system_init values bufs) schedule).master.values i
            = bubblesort (unit M values i) M := by
  have hinit := sysInv_init N M values bufs hlen hbufs
  have hl0 : (system_init values bufs).slaves.length = bufs.length := by simp [system_init]
  constructor
  · obtain ⟨sch, hsch⟩ := exists_schedule N M values hlen _ _ hinit (Nat.le_refl _)
    exact ⟨sch, by rw [hsch, hl0]⟩
  · intro schedule hend
    have hinv := sysInv_run N M values hlen schedule _ hinit
    have hl : (system_run N M (system_init values bufs) schedule).slaves.length
        = bufs.length := by
      rw [system_run_length, hl0]
    have hu := sysInv_final N M values _ hinv (by rw [hl]; exact hW) (by rw [hl]; exact hend)
    obtain ⟨hsl, hsu⟩ := sequential_sort_units N M values hlen
    refine ⟨ext_units N M _ _ hinv.1 hsl ?_, hu⟩
    intro k hk
    rw [hu k hk, hsu k hk]

/-- C8 on the scenario of four units `[5,4,3,2,1]` and two workers. -/
theorem equivalence_witness :
    (system_run 4 5
        (system_init [5, 4, 3, 2, 1, 5, 4, 3, 2, 1, 5, 4, 3, 2, 1, 5, 4, 3, 2, 1]
          [[0, 0, 0, 0, 0], [0, 0, 0, 0, 0]])
        [0, 1, 0, 1, 1, 0, 1, 0, 1, 0]).master.values
      = sequential_sort 4 5 [5, 4, 3, 2, 1, 5, 4, 3, 2, 1, 5, 4, 3, 2, 1, 5, 4, 3, 2, 1] :=
  ((equivalence 4 5 [5, 4, 3, 2, 1, 5, 4, 3, 2, 1, 5, 4, 3, 2, 1, 5, 4, 3, 2, 1]
    [[0, 0, 0, 0, 0], [0, 0, 0, 0, 0]] (by decide) (by decide) (by decide)).2
    [0, 1, 0, 1, 1, 0, 1, 0, 1, 0] (by decide)).1

/-! ## Sort primitive: passes, fixed points -/

/-- The pass leaves at the anchor a value that is at most the old anchor and at most
every later cell. -/
theorem anchorPass_min (l : List Int) : ∀ x : Int,
    (anchorPass x l).1 ≤ x ∧ ∀ y ∈ (anchorPass x l).2.1, (anchorPass x l).1 ≤ y := by
  induction l with
  | nil => intro x; simp [anchorPass]
  | cons y ys ih =>
    intro x
    by_cases h : y < x
    · obtain ⟨h1, h2⟩ := ih y
      simp only [anchorPass, h, if_true]
      refine ⟨by omega, ?_⟩
      intro z hz
      rcases List.mem_cons.mp hz with hz | hz
      · subst hz; omega
      · exact h2 z hz
    · obtain ⟨h1, h2⟩ := ih x
      simp only [anchorPass, h, if_false]
      refine ⟨h1, ?_⟩
      intro z hz
      rcases List.mem_cons.mp hz with hz | hz
      · subst hz; omega
      · exact h2 z hz

/-- The value the pass leaves at the anchor is a least cell of the anchor and the later
cells. -/
theorem anchorPass_least (l : List Int) (x : Int) :
    (anchorPass x l).1 ∈ x :: l ∧ ∀ y ∈ x :: l, (anchorPass x l).1 ≤ y := by
  have hp := anchorPass_perm l x
  obtain ⟨h1, h2⟩ := anchorPass_min l x
  refine ⟨hp.mem_iff.mp (List.mem_cons_self _ _), ?_⟩
  intro y hy
  rcases List.mem_cons.mp (hp.mem_iff.mpr hy) with h | h
  · rw [h]
  · exact h2 y h

/-- A pass whose anchor is at most every later cell swaps nothing. -/
theorem anchorPass_noswap (l : List Int) : ∀ x : Int, (∀ y ∈ l, x ≤ y) →
    anchorPass x l = (x, l, false) := by
  induction l with
  | nil => intro x _; rfl
  | cons y ys ih =>
    intro x h
    have hxy : ¬ y < x := by
      have := h y (List.mem_cons_self _ _)
      omega
    have h2 := ih x (fun z hz => h z (List.mem_cons_of_mem _ hz))
    simp [anchorPass, hxy, h2]

theorem passes_false (n : Nat) (l : List Int) : passes n false l = l := by
  cases n with
  | zero => rfl
  | succ n => cases l <;> rfl

/-- The arrays that `bubblesort` returns as they were: the empty one, and those whose
first cell is at most every later cell. -/
theorem sort_fixed_iff (l : List Int) :
    bubblesort l l.length = l ↔ l = [] ∨ ∃ x rest, l = x :: rest ∧ ∀ y ∈ rest, x ≤ y := by
  rw [bubblesort_eq_passes]
  cases l with
  | nil => simp [passes]
  | cons x rest =>
    simp only [List.length_cons, passes, List.cons.injEq, false_or, reduceCtorEq]
    constructor
    · intro h
      refine ⟨x, rest, ⟨rfl, rfl⟩, ?_⟩
      intro y hy
      have := (anchorPass_least rest x).2 y (List.mem_cons_of_mem _ hy)
      rw [h.1] at this
      exact this
    · rintro ⟨x1, rest1, ⟨hx, hr⟩, hall⟩
      subst hx
      subst hr
      rw [anchorPass_noswap rest x hall]
      exact ⟨rfl, passes_false _ _⟩

/-- The first cell of the output of a non-empty input is a least cell of the input, and
of the output. -/
theorem sort_head_least (x : Int) (rest : List Int) :
    ∃ m tl, bubblesort (x :: rest) (x :: rest).length = m :: tl ∧ m ∈ x :: rest ∧
      (∀ y ∈ x :: rest, m ≤ y) ∧ ∀ y ∈ tl, m ≤ y := by
  have hp := sort_permutes (x :: rest) (x :: rest).length rfl
  rw [bubblesort_eq_passes] at hp ⊢
  simp only [List.length_cons, passes] at hp ⊢
  obtain ⟨h1, h2⟩ := anchorPass_least rest x
  refine ⟨_, _, rfl, h1, h2, ?_⟩
  intro y hy
  exact h2 y (hp.mem_iff.mp (List.mem_cons_of_mem _ hy))

/-- C11. Idempotence on sorted input: every int sequence that is already in ascending
(non-decreasing) order, of every length, is left exactly as it was by `bubblesort`. -/
theorem bubblesort_sorted_unchanged (array : List Int) (h : List.Sorted (· ≤ ·) array) :
    bubblesort array array.length = array := by
  rw [sort_fixed_iff]
  cases array with
  | nil => exact Or.inl rfl
  | cons x rest => exact Or.inr ⟨x, rest, rfl, List.rel_of_sorted_cons h⟩

/-- C11 on `[1, 2, 2, 3]`. -/
theorem bubblesort_sorted_unchanged_witness :
    List.Sorted (· ≤ ·) ([1, 2, 2, 3] : List Int) ∧
      bubblesort [1, 2, 2, 3] [1, 2, 2, 3].length = [1, 2, 2, 3] :=
  ⟨by decide, bubblesort_sorted_unchanged [1, 2, 2, 3] (by decide)⟩

/-- C16. Fixed points of the sort: `bubblesort` returns an int sequence as it was if and
only if the sequence is empty or its first element is at most every later element; so
`[1, 3, 2]` is returned untouched, though it is not ascending. -/
theorem bubblesort_fixed_points (array : List Int) :
    (bubblesort array array.length = array ↔
      array = [] ∨ ∃ x rest, array = x :: rest ∧ ∀ y ∈ rest, x ≤ y) ∧
    bubblesort [1, 3, 2] 3 = [1, 3, 2] ∧ ¬ List.Sorted (· ≤ ·) ([1, 3, 2] : List Int) :=
  ⟨sort_fixed_iff array, by decide, by decide⟩

/-- C16 on `[1, 3, 2]`, whose first element is at most the later ones. -/
theorem bubblesort_fixed_points_witness :
    bubblesort [1, 3, 2] [1, 3, 2].length = [1, 3, 2] :=
  (bubblesort_fixed_points [1, 3, 2]).1.mpr (Or.inr ⟨1, [3, 2], rfl, by decide⟩)

/-- C17. The sort is idempotent as a function: for every int sequence `x`, of every length,
`bubblesort(bubblesort(x)) = bubblesort(x)`, also when `bubblesort(x)` is not ascending
(as for `[2, 1, 4, 3]`, which gives `[1, 2, 4, 3]`). -/
theorem bubblesort_idempotent (x : List Int) :
    bubblesort (bubblesort x x.length) x.length = bubblesort x x.length ∧
      bubblesort [2, 1, 4, 3] 4 = [1, 2, 4, 3] ∧
      bubblesort (bubblesort [2, 1, 4, 3] 4) 4 = [1, 2, 4, 3] := by
  refine ⟨?_, by decide, by decide⟩
  cases x with
  | nil => decide
  | cons a rest =>
    obtain ⟨m, tl, hout, _, _, htl⟩ := sort_head_least a rest
    have hlen : (bubblesort (a :: rest) (a :: rest).length).length = (a :: rest).length :=
      bubblesort_length _ _ rfl
    have hfix := (sort_fixed_iff (bubblesort (a :: rest) (a :: rest).length)).mpr
      (Or.inr ⟨m, tl, hout, htl⟩)
    rw [hlen] at hfix
    exact hfix

/-- The body of the inner loop at anchor `i` and index `j` leaves every cell other than
`i` and `j` as it was. -/
theorem bubblesort_body_frame (i j q : Nat) (st : List Int × Bool) (hi : i ≠ q) (hj : j ≠ q) :
    (bubblesort_body i st j).1[q]? = st.1[q]? := by
  unfold bubblesort_body
  split
  · simp only
    rw [List.getElem?_set_ne hj, List.getElem?_set_ne hi]
  · rfl

/-- Pass `i` stores only into cells at positions `i` and above. -/
theorem bubblesort_pass_frame (SIZE i q : Nat) (a0 : List Int) (hq : q < i) :
    (bubblesort_pass SIZE i a0).1[q]? = a0[q]? := by
  unfold bubblesort_pass
  have hgen : ∀ (js : List Nat) (st : List Int × Bool), (∀ j ∈ js, i < j) →
      (js.foldl (bubblesort_body i) st).1[q]? = st.1[q]? := by
    intro js
    induction js with
    | nil => intro st _; rfl
    | cons j js ih =>
      intro st hjs
      rw [List.foldl_cons, ih _ (fun j1 h1 => hjs j1 (List.mem_cons_of_mem _ h1))]
      have hij := hjs j (List.mem_cons_self _ _)
      exact bubblesort_body_frame i j q st (by omega) (by omega)
  exact hgen _ _ (fun j hj => by
    have := (List.mem_range'_1.mp hj).1
    omega)

/-- The state after `k` complete passes is a state of the run of `bubblesort`: the run
goes on from it. -/
theorem after_passes_run (SIZE : Nat) (array : List Int) (k : Nat) :
    ∀ a s, after_passes SIZE k array = some (a, s) →
      k ≤ SIZE ∧ bubblesort array SIZE = bubblesort_outer SIZE (SIZE + 1 - k) k s a := by
  induction k with
  | zero =>
    intro a s h
    simp only [after_passes, Option.some.injEq, Prod.mk.injEq] at h
    obtain ⟨ha, hs⟩ := h
    subst ha
    subst hs
    exact ⟨Nat.zero_le _, rfl⟩
  | succ k ih =>
    intro a s h
    unfold after_passes at h
    cases hprev : after_passes SIZE k array with
    | none => rw [hprev] at h; simp at h
    | some st =>
      rw [hprev] at h
      simp only at h
      by_cases hg : (st.2 && decide (k < SIZE)) = true
      · rw [if_pos hg] at h
        have hr : bubblesort_pass SIZE k st.1 = (a, s) := Option.some.inj h
        obtain ⟨_, hrun⟩ := ih st.1 st.2 (by rw [hprev])
        have hk : k < SIZE := by
          simp only [Bool.and_eq_true, decide_eq_true_eq] at hg
          exact hg.2
        have hfuel : SIZE + 1 - k = (SIZE + 1 - (k + 1)) + 1 := by omega
        refine ⟨hk, ?_⟩
        rw [hrun, hfuel]
        simp only [bubblesort_outer, hg, if_true, hr]
      · rw [if_neg hg] at h
        simp at h

/-- After `k` complete passes the first `k` cells are in ascending order and at most every
later cell, and the array is a permutation of the input. -/
theorem after_passes_sorted (array : List Int) (k : Nat) :
    ∀ a s, after_passes array.length k array = some (a, s) →
      a.Perm array ∧ List.Sorted (· ≤ ·) (a.take k) ∧
        ∀ x ∈ a.take k, ∀ y ∈ a.drop k, x ≤ y := by
  induction k with
  | zero =>
    intro a s h
    simp only [after_passes, Option.some.injEq, Prod.mk.injEq] at h
    rw [← h.1]
    exact ⟨List.Perm.refl _, by simp, by simp⟩
  | succ k ih =>
    intro a s h
    unfold after_passes at h
    cases hprev : after_passes array.length k array with
    | none => rw [hprev] at h; simp at h
    | some st =>
      rw [hprev] at h
      simp only at h
      by_cases hg : (st.2 && decide (k < array.length)) = true
      · rw [if_pos hg] at h
        have hr : bubblesort_pass array.length k st.1 = (a, s) := Option.some.inj h
        obtain ⟨hperm, hsorted, hle⟩ := ih st.1 st.2 (by rw [hprev])
        have hk : k < st.1.length := by
          simp only [Bool.and_eq_true, decide_eq_true_eq] at hg
          rw [hperm.length_eq]; exact hg.2
        have hsplit : st.1 = st.1.take k ++ st.1[k] :: st.1.drop (k + 1) := by
          rw [← List.drop_eq_getElem_cons hk, List.take_append_drop]
        have hpl : (st.1.take k).length = k := by
          rw [List.length_take]; omega
        have hsz : array.length = (st.1.take k).length + 1 + (st.1.drop (k + 1)).length := by
          rw [hpl, List.length_drop, ← hperm.length_eq]; omega
        have hpass := bubblesort_pass_eq (st.1.take k) st.1[k] (st.1.drop (k + 1)) []
        rw [List.append_nil, ← hsplit, ← hsz, hpl, List.append_nil, hr] at hpass
        have ha : a = st.1.take k
            ++ (anchorPass st.1[k] (st.1.drop (k + 1))).1
              :: (anchorPass st.1[k] (st.1.drop (k + 1))).2.1 := congrArg Prod.fst hpass
        obtain ⟨hmem, hleast⟩ := anchorPass_least (st.1.drop (k + 1)) st.1[k]
        have hap := anchorPass_perm (st.1.drop (k + 1)) st.1[k]
        rw [← List.drop_eq_getElem_cons hk] at hmem hleast hap
        have htk : a.take (k + 1)
            = st.1.take k ++ [(anchorPass st.1[k] (st.1.drop (k + 1))).1] := by
          rw [ha]
          have : st.1.take k ++ (anchorPass st.1[k] (st.1.drop (k + 1))).1
              :: (anchorPass st.1[k] (st.1.drop (k + 1))).2.1
              = (st.1.take k ++ [(anchorPass st.1[k] (st.1.drop (k + 1))).1])
                ++ (anchorPass st.1[k] (st.1.drop (k + 1))).2.1 := by simp
          rw [this]
          exact List.take_left' (by simp [hpl])
        have hdk : a.drop (k + 1) = (anchorPass st.1[k] (st.1.drop (k + 1))).2.1 := by
          rw [ha]
          have : st.1.take k ++ (anchorPass st.1[k] (st.1.drop (k + 1))).1
              :: (anchorPass st.1[k] (st.1.drop (k + 1))).2.1
              = (st.1.take k ++ [(anchorPass st.1[k] (st.1.drop (k + 1))).1])
                ++ (anchorPass st.1[k] (st.1.drop (k + 1))).2.1 := by simp
          rw [this]
          exact List.drop_left' (by simp [hpl])
        refine ⟨?_, ?_, ?_⟩
        · rw [ha]
          refine List.Perm.trans ?_ hperm
          have h2 := List.Perm.append_left (st.1.take k) hap
          rw [List.take_append_drop] at h2
          exact h2
        · rw [htk]
          refine List.pairwise_append.mpr ⟨hsorted, List.pairwise_singleton _ _, ?_⟩
          intro x hx y hy
          rw [List.mem_singleton] at hy
          subst hy
          exact hle x hx _ hmem
        · intro x hx y hy
          rw [htk] at hx
          rw [hdk] at hy
          have hy2 : y ∈ st.1.drop k := hap.mem_iff.mp (List.mem_cons_of_mem _ hy)
          rcases List.mem_append.mp hx with hx | hx
          · exact hle x hx y hy2
          · rw [List.mem_singleton] at hx
            subst hx
            exact hleast y hy2
      · rw [if_neg hg] at h
        simp at h

/-- C15. Pass invariant of the sort: for every input and every `k`, when `bubblesort` has
completed `k` passes (anchors `0 .. k-1`) the array is a permutation of the input whose
first `k` cells are in ascending order and at most every cell at a position `≥ k`, so they
are the `k` smallest elements of the input; pass `i` stores only into positions `≥ i`;
and the first cell of the output of a non-empty input is the minimum of the input. -/
theorem pass_invariant (array : List Int) :
    (∀ k a s, after_passes array.length k array = some (a, s) →
      k ≤ array.length ∧ a.Perm array ∧ List.Sorted (· ≤ ·) (a.take k) ∧
        (∀ x ∈ a.take k, ∀ y ∈ a.drop k, x ≤ y) ∧
        bubblesort array array.length
          = bubblesort_outer array.length (array.length + 1 - k) k s a) ∧
    (∀ (i q : Nat) (a0 : List Int), q < i →
      (bubblesort_pass array.length i a0).1[q]? = a0[q]?) ∧
    (array ≠ [] →
      ∃ m, (bubblesort array array.length)[0]? = some m ∧ m ∈ array ∧ ∀ x ∈ array, m ≤ x) := by
  refine ⟨?_, ?_, ?_⟩
  · intro k a s h
    obtain ⟨h1, h2⟩ := after_passes_run array.length array k a s h
    obtain ⟨h3, h4, h5⟩ := after_passes_sorted array k a s h
    exact ⟨h1, h3, h4, h5, h2⟩
  · intro i q a0 hq
    exact bubblesort_pass_frame array.length i q a0 hq
  · intro hne
    cases array with
    | nil => exact absurd rfl hne
    | cons x rest =>
      obtain ⟨m, tl, hout, hmem, hle, _⟩ := sort_head_least x rest
      exact ⟨m, by rw [hout]; simp, hmem, hle⟩

/-- C15 on `[3, 1, 2]`: two passes complete, and the first two cells are `1, 2`. -/
theorem pass_invariant_witness :
    after_passes 3 2 [3, 1, 2] = some ([1, 2, 3], true) ∧
      List.Sorted (· ≤ ·) (([1, 2, 3] : List Int).take 2) :=
  ⟨by decide, ((pass_invariant [3, 1, 2]).1 2 [1, 2, 3] true (by decide)).2.2.1⟩

/-! ## Coordinator: counters, empty Job Set, values that are no index -/

/-- C18. Coordinator counter invariant: for every `N` and `W`, in every state the
coordinator loop reaches from `sorted_cnt = 0`, `terminated_cnt = 0` by processing any
sequence of control messages (Requests and valid Completed messages among them), the
counters, which are naturals, satisfy `sorted_cnt ≤ N` and `terminated_cnt ≤ W`, and
`terminated_cnt > 0` implies `sorted_cnt = N`; this holds after every number of
messages. -/
theorem coordinator_counters (W N M : Nat) (values : List Int) (events : List Event) (n : Nat) :
    (master_loop W N M (master_init values, []) (events.take n)).1.sorted_cnt ≤ N ∧
      (master_loop W N M (master_init values, []) (events.take n)).1.terminated_cnt ≤ W ∧
      (0 < (master_loop W N M (master_init values, []) (events.take n)).1.terminated_cnt →
        (master_loop W N M (master_init values, []) (events.take n)).1.sorted_cnt = N) := by
  obtain ⟨_, h2, _, h4, _⟩ :=
    masterInv_loop W N M (events.take n) _ (masterInv_init N values)
  exact ⟨h2, master_loop_terminated_le W N M _ _ (Nat.zero_le _), h4⟩

/-- With no unit to assign every message the coordinator sends is a Terminate. -/
theorem only_terminates_loop (W M : Nat) (es : List Event) : ∀ c : Master × List Msg,
    c.1.sorted_cnt = 0 → (∀ m ∈ c.2, ∃ d, m = Msg.svc d SVC_TERMINATE) →
    (master_loop W 0 M c es).1.sorted_cnt = 0 ∧
      ∀ m ∈ (master_loop W 0 M c es).2, ∃ d, m = Msg.svc d SVC_TERMINATE := by
  induction es with
  | nil => intro c h0 h; exact ⟨h0, h⟩
  | cons e es ih =>
    intro c h0 h
    unfold master_loop
    split
    · rcases master_iter_cases 0 M c.1 e with ⟨hlt, _⟩ | ⟨_, heq⟩ | ⟨ho, hs, _⟩
      · exact absurd hlt (Nat.not_lt_zero _)
      · rw [heq]
        refine ih _ h0 ?_
        intro m hm
        rcases List.mem_append.mp hm with hm | hm
        · exact h m hm
        · rw [List.mem_singleton] at hm
          exact ⟨e.src, hm⟩
      · refine ih _ (by rw [hs]; exact h0) ?_
        rw [ho, List.append_nil]
        exact h
    · exact ⟨h0, h⟩

/-- C12. Empty job set: when `N = 0`, for every `W` (so for every `W ≥ 1`) and every
sequence of control messages, the coordinator answers every Request with Terminate, and
every message it sends is a Terminate: it never sends an Assign or a payload. -/
theorem empty_job_set (W M : Nat) (values : List Int) :
    (∀ (st : Master) (s : Nat) (data : List Int),
      (master_iter 0 M st ⟨s, -1, data⟩).2 = [Msg.svc s (-2)]) ∧
    ∀ events : List Event,
      assigns (master_loop W 0 M (master_init values, []) events).2 = [] ∧
        (∀ m ∈ (master_loop W 0 M (master_init values, []) events).2,
          ∃ d, m = Msg.svc d (-2)) ∧
        (∀ d data, Msg.array d data ∉ (master_loop W 0 M (master_init values, []) events).2) := by
  constructor
  · intro st s data
    have h := master_req_terminate 0 M st s data (Nat.not_lt_zero _)
    rw [show (⟨s, -1, data⟩ : Event) = ⟨s, SVC_REQUEST, data⟩ from rfl, h]
    rfl
  · intro events
    obtain ⟨h1, h2, _, _, _⟩ := masterInv_loop W 0 M events _ (masterInv_init 0 values)
    obtain ⟨_, hall⟩ := only_terminates_loop W M events (master_init values, []) rfl
      (fun m hm => by simp at hm)
    refine ⟨?_, hall, ?_⟩
    · rw [h1, Nat.le_zero.mp h2]; rfl
    · intro d data hmem
      obtain ⟨d2, hd2⟩ := hall _ hmem
      exact absurd hd2 (by simp)

/-- C12 on two workers that request once each, with a stray Completed in between. -/
theorem empty_job_set_witness :
    (master_loop 2 0 3 (master_init [], [])
        [⟨0, -1, []⟩, ⟨1, 0, [1, 2, 3]⟩, ⟨1, -1, []⟩]).2 = [Msg.svc 0 (-2), Msg.svc 1 (-2)] ∧
      assigns (master_loop 2 0 3 (master_init [], [])
        [⟨0, -1, []⟩, ⟨1, 0, [1, 2, 3]⟩, ⟨1, -1, []⟩]).2 = [] :=
  ⟨by decide,
    ((empty_job_set 2 3 []).2 [⟨0, -1, []⟩, ⟨1, 0, [1, 2, 3]⟩, ⟨1, -1, []⟩]).1⟩

/-- C18 on two units and two workers, at the end of the run. -/
theorem coordinator_counters_witness :
    0 < (master_loop 2 2 1 (master_init [2, 1], [])
        ([⟨0, -1, []⟩, ⟨1, -1, []⟩, ⟨1, 1, [1]⟩, ⟨1, -1, []⟩, ⟨0, 0, [2]⟩,
          ⟨0, -1, []⟩].take 6)).1.terminated_cnt ∧
      (master_loop 2 2 1 (master_init [2, 1], [])
        ([⟨0, -1, []⟩, ⟨1, -1, []⟩, ⟨1, 1, [1]⟩, ⟨1, -1, []⟩, ⟨0, 0, [2]⟩,
          ⟨0, -1, []⟩].take 6)).1.sorted_cnt = 2 :=
  ⟨by decide,
    (coordinator_counters 2 2 1 [2, 1]
      [⟨0, -1, []⟩, ⟨1, -1, []⟩, ⟨1, 1, [1]⟩, ⟨1, -1, []⟩, ⟨0, 0, [2]⟩, ⟨0, -1, []⟩] 6).2.2
      (by decide)⟩

/-- A product that fits an `int` is not changed by the machine. -/
theorem int_wrap_of_fits (x : Int) (h1 : -2147483648 ≤ x) (h2 : x < 2147483648) :
    int_wrap x = x := by
  unfold int_wrap
  omega

/-- Where the products fit an `int`, the switch with the machine's products does what
`master_iter` does, whenever it is defined. -/
theorem master_iter32_exact (N M : Nat) (st : Master) (e : Event) (r : Master × List Msg)
    (h1 : int_mul (st.sorted_cnt : Int) (M : Int) = ((st.sorted_cnt * M : Nat) : Int))
    (h2 : int_mul e.service (M : Int) = e.service * (M : Int))
    (h : master_iter32 N M st e = some r) : r = master_iter N M st e := by
  unfold master_iter32 at h
  unfold master_iter
  by_cases hreq : e.service = SVC_REQUEST
  · simp only [hreq, if_true] at h ⊢
    by_cases hlt : st.sorted_cnt < N
    · simp only [hlt, if_true, h1, Int.toNat_natCast] at h ⊢
      split at h
      · exact (Option.some.inj h).symm
      · exact absurd h (by simp)
    · simp only [hlt, if_false] at h ⊢
      exact (Option.some.inj h).symm
  · simp only [hreq, if_false, h2] at h ⊢
    cases hm : master_receive_array st.values (e.service * (M : Int)) M e.data with
    | none => rw [hm] at h; exact absurd h (by simp)
    | some values1 =>
      rw [hm] at h
      exact (Option.some.inj h).symm

/-- C14. Role selection: for every participant count `W` and every rank `r` (so for
every `W ≥ 1` and `r` in `[0, W)`), if `W = 1` the program calls `sequential`, which sends nothing and whose result
does not depend on any message; if `W ≥ 2` the participant of rank `W-1`, and only that
one, calls `parallel_master` with `SLAVE_CNT = W-1`, and every rank `r < W-1` calls
`parallel_slave` with `MASTER = W-1`. -/
theorem role_selection (W r N M : Nat) :
    (W = 1 →
      main W r N M = Role.sequential N M ∧
        ∀ block events replies,
          (run_role (main W r N M) block events replies).1 = [] ∧
            run_role (main W r N M) block events replies
              = run_role (main W r N M) block [] []) ∧
    (2 ≤ W →
      (r = W - 1 → main W r N M = Role.master (W - 1) N M) ∧
        (r < W - 1 → main W r N M = Role.slave r M (W - 1)) ∧
        (main W r N M = Role.master (W - 1) N M ↔ r = W - 1)) := by
  constructor
  · intro h1
    have hm : main W r N M = Role.sequential N M := by simp [main, h1]
    refine ⟨hm, ?_⟩
    intro block events replies
    rw [hm]
    exact ⟨rfl, rfl⟩
  · intro h2
    have hne : ¬ W = 1 := by omega
    have hcast : ((r : Int) = (W : Int) - 1) ↔ r = W - 1 := by omega
    have hmain : main W r N M
        = if r = W - 1 then Role.master (W - 1) N M else Role.slave r M (W - 1) := by
      simp only [main, hne, if_false, parallel, hcast]
    refine ⟨?_, ?_, ?_⟩
    · intro hrw
      rw [hmain, if_pos hrw]
    · intro hlt
      have hrw : ¬ r = W - 1 := by omega
      rw [hmain, if_neg hrw]
    · constructor
      · intro hm
        by_contra hrw
        rw [hmain, if_neg hrw] at hm
        exact absurd hm (by simp)
      · intro hrw
        rw [hmain, if_pos hrw]

/-- C14 on one participant, and on three participants at ranks 2 and 0. -/
theorem role_selection_witness :
    main 1 0 4 5 = Role.sequential 4 5 ∧ main 3 2 4 5 = Role.master 2 4 5 ∧
      main 3 0 4 5 = Role.slave 0 5 2 :=
  ⟨((role_selection 1 0 4 5).1 (by decide)).1,
    ((role_selection 3 2 4 5).2 (by decide)).1 (by decide),
    ((role_selection 3 0 4 5).2 (by decide)).2.1 (by decide)⟩

/-! ## The three copies of the sort -/

theorem parallel_c_sort_body_eq (i : Nat) (st : List Int × Bool) (j : Nat) :
    parallel_c_sort_body i st j = bubblesort_body i st j := rfl

theorem parallel_c_sort_outer_eq (M : Nat) (fuel : Nat) : ∀ (i : Nat) (s : Bool)
    (values : List Int),
    parallel_c_sort_outer M fuel i s values = bubblesort_outer M fuel i s values := by
  induction fuel with
  | zero => intro i s values; rfl
  | succ n ih =>
    intro i s values
    unfold parallel_c_sort_outer bubblesort_outer
    have hp : parallel_c_sort_pass M i values = bubblesort_pass M i values := rfl
    rw [hp]
    split
    · exact ih _ _ _
    · rfl

/-- The inline sort of the worker of parallel.c is `bubblesort`. -/
theorem parallel_c_sort_eq (values : List Int) (M : Nat) :
    parallel_c_sort values M = bubblesort values M :=
  parallel_c_sort_outer_eq M (M + 1) 0 true values

/-- The loop body of sequential.c on the cells of array `a`, which lie behind `pre`, is
the loop body of `bubblesort` on these cells. -/
theorem sequential_c_body_eq (a M i j : Nat) (pre arr : List Int) (s : Bool)
    (hpre : pre.length = a * M) :
    sequential_c_body a M i (pre ++ arr, s) j
      = (pre ++ (bubblesort_body i (arr, s) j).1, (bubblesort_body i (arr, s) j).2) := by
  have hg : ∀ q, (pre ++ arr).getD (a * M + q) 0 = arr.getD q 0 := by
    intro q
    rw [List.getD_append_right _ _ _ _ (by omega)]
    congr 1
    omega
  have hs : ∀ (l : List Int) q (x : Int), (pre ++ l).set (a * M + q) x = pre ++ l.set q x := by
    intro l q x
    rw [List.set_append, if_neg (by omega)]
    congr 2
    omega
  unfold sequential_c_body bubblesort_body
  simp only [hg]
  split
  · simp only [hs]
  · rfl

theorem sequential_c_foldl_eq (a M i : Nat) (pre : List Int) (hpre : pre.length = a * M)
    (js : List Nat) : ∀ (arr : List Int) (s : Bool),
    js.foldl (sequential_c_body a M i) (pre ++ arr, s)
      = (pre ++ (js.foldl (bubblesort_body i) (arr, s)).1,
          (js.foldl (bubblesort_body i) (arr, s)).2) := by
  induction js with
  | nil => intro arr s; rfl
  | cons j js ih =>
    intro arr s
    rw [List.foldl_cons, List.foldl_cons, sequential_c_body_eq a M i j pre arr s hpre, ih]

theorem sequential_c_outer_eq (a M : Nat) (pre : List Int) (hpre : pre.length = a * M)
    (fuel : Nat) : ∀ (i : Nat) (s : Bool) (arr : List Int),
    sequential_c_outer a M fuel i s (pre ++ arr) = pre ++ bubblesort_outer M fuel i s arr := by
  induction fuel with
  | zero => intro i s arr; rfl
  | succ n ih =>
    intro i s arr
    unfold sequential_c_outer bubblesort_outer
    have hp : sequential_c_pass a M i (pre ++ arr)
        = (pre ++ (bubblesort_pass M i arr).1, (bubblesort_pass M i arr).2) := by
      unfold sequential_c_pass bubblesort_pass
      exact sequential_c_foldl_eq a M i pre hpre _ arr false
    rw [hp]
    split
    · exact ih _ _ _
    · rfl

/-- The inline sort of sequential.c on array `a` is `bubblesort(&values[a*M], M)`. -/
theorem sequential_c_sort_unit_eq (M : Nat) (values : List Int) (a : Nat)
    (h : a * M ≤ values.length) :
    sequential_c_sort_unit M values a = sort_unit M values a := by
  unfold sequential_c_sort_unit sort_unit bubblesort
  have hpre : (values.take (a * M)).length = a * M := by
    rw [List.length_take]; omega
  have := sequential_c_outer_eq a M (values.take (a * M)) hpre (M + 1) 0 true
    (values.drop (a * M))
  rw [List.take_append_drop] at this
  exact this

/-- The whole sort loop of sequential.c is the sort loop of `sequential`. -/
theorem sequential_c_sort_eq (N M : Nat) (values : List Int) (hlen : values.length = N * M) :
    sequential_c_sort N M values = sequential_sort N M values := by
  have hgen : ∀ n, n ≤ N →
      (List.range n).foldl (sequential_c_sort_unit M) values
        = (List.range n).foldl (sort_unit M) values := by
    intro n
    induction n with
    | zero => intro _; rfl
    | succ n ih =>
      intro hn
      have hl := (sequential_upto N M values hlen n (Nat.le_of_succ_le hn)).1
      have h1 : (n + 1) * M ≤ N * M := Nat.mul_le_mul_right M hn
      rw [Nat.add_mul, Nat.one_mul] at h1
      rw [List.range_succ, List.foldl_append, List.foldl_append, ih (Nat.le_of_succ_le hn)]
      simp only [List.foldl_cons, List.foldl_nil]
      exact sequential_c_sort_unit_eq M _ n (by rw [hl]; omega)
  exact hgen N (Nat.le_refl N)

/-- C19. The three copies of the sort agree: for every Job Set of `N` units of `M` cells
and every unit index `a`, the standalone `bubblesort(&values[a*M], M)`, the inline sort of
the worker of parallel.c on a copy of unit `a`, and the inline sort of sequential.c in
place at offset `a*M` give the same contents for unit `a`, namely `bubblesort` of the
unit; the loop of sequential.c gives the same array as the standalone call and changes no
cell outside unit `a`. -/
theorem three_sorts_agree (N M : Nat) (values : List Int) (a : Nat)
    (hlen : values.length = N * M) (ha : a < N) :
    unit M (sort_unit M values a) a = bubblesort (unit M values a) M ∧
      parallel_c_sort (unit M values a) M = bubblesort (unit M values a) M ∧
      unit M (sequential_c_sort_unit M values a) a = bubblesort (unit M values a) M ∧
      sequential_c_sort_unit M values a = sort_unit M values a ∧
      (∀ q, q < a * M ∨ a * M + M ≤ q →
        (sequential_c_sort_unit M values a)[q]? = values[q]?) := by
  have h1 : (a + 1) * M ≤ N * M := Nat.mul_le_mul_right M ha
  rw [Nat.add_mul, Nat.one_mul] at h1
  have hle : a * M ≤ values.length := by omega
  have hd : (bubblesort (unit M values a) M).length = M :=
    bubblesort_length _ _ (unit_length N M values a hlen ha)
  have hstd : unit M (sort_unit M values a) a = bubblesort (unit M values a) M := by
    rw [sort_unit_eq N M values a hlen ha]
    exact unit_store_same N M values _ a hlen ha hd
  have hseq := sequential_c_sort_unit_eq M values a hle
  refine ⟨hstd, parallel_c_sort_eq _ _, by rw [hseq]; exact hstd, hseq, ?_⟩
  intro q hq
  rw [hseq, sort_unit_eq N M values a hlen ha,
    getElem?_store _ _ _ _ (by rw [hd]; omega), hd]
  rcases hq with hq | hq
  · simp [hq]
  · have h2 : ¬ q < a * M := by omega
    have h3 : ¬ q < a * M + M := by omega
    simp only [h2, h3, if_false]

/-- C19 on two units of three cells, unit 1. -/
theorem three_sorts_agree_witness :
    sequential_c_sort_unit 3 [1, 2, 3, 6, 5, 4] 1 = [1, 2, 3, 4, 5, 6] ∧
      sequential_c_sort_unit 3 [1, 2, 3, 6, 5, 4] 1 = sort_unit 3 [1, 2, 3, 6, 5, 4] 1 :=
  ⟨by decide, (three_sorts_agree 2 3 [1, 2, 3, 6, 5, 4] 1 (by decide) (by decide)).2.2.2.1⟩

end BagOfTasks
